import Mathlib

/-!
Verification of the OSR dungeon generator core.

Shallow embedding of:
- the data model (src/types.ts),
- the connection roller (randomConnectionType),
- the bite-sized generator (LAYOUTS, shuffle, generateBiteSizedDungeon),
- the graph mutations (updateNode, updateEdge, addEdge, attachDungeon,
  replaceNodeWithDungeon),
- the topology analysis of DungeonGraph.tsx (getBridgeLinkKeys,
  getDepthsFromEntrances).

Every call to the JavaScript random source is modelled by an explicit
parameter carrying the drawn value (`Math.floor(Math.random() * n)` becomes
a natural number argument, the Fisher-Yates draws become a list, the fresh
room ids become a list of strings).
-/

/-- src/types.ts `RoomType`. -/
inductive RoomType where
  | monster_treasure
  | monster
  | treasure
  | special
  | empty
deriving DecidableEq, Repr

/-- src/types.ts `ConnectionType`. -/
inductive ConnectionType where
  | «open»
  | closed
  | trapped
  | hazardous
  | secret
deriving DecidableEq, Repr

/-- src/types.ts `DungeonNode`.  The optional `entrance` flag is modelled as a
`Bool` (absent = `false`, matching how the code reads it). -/
structure DungeonNode where
  id : String
  label : String
  roomType : RoomType
  content : String
  entrance : Bool := false
  parentNodeId : Option String := none
deriving DecidableEq, Repr

/-- src/types.ts `DungeonLink`. -/
structure DungeonLink where
  source : String
  target : String
  connectionType : ConnectionType
  description : Option String := none
  clueRoomId : Option String := none
deriving DecidableEq, Repr

/-- src/types.ts `GraphData`. -/
structure GraphData where
  nodes : List DungeonNode
  links : List DungeonLink
deriving DecidableEq, Repr

instance : Inhabited DungeonNode :=
  ⟨{ id := "", label := "", roomType := .empty, content := "" }⟩

/-- src/utils/connectionRoll.ts `randomConnectionType`; `roll` models the
uniform draw `Math.floor(Math.random() * 1000)`. -/
def randomConnectionType (roll : Nat) : ConnectionType :=
  if roll < 447 then .«open»
  else if roll < 670 then .closed
  else if roll < 780 then .trapped
  else if roll < 890 then .hazardous
  else .secret

/-- Lexicographic code-point comparison of character lists — the comparison
behind JavaScript's default `Array.prototype.sort` on the two-element arrays
normalised below. -/
def charListLe : List Char → List Char → Bool
  | [], _ => true
  | _ :: _, [] => false
  | x :: xs, y :: ys =>
    if x.toNat < y.toNat then true
    else if y.toNat < x.toNat then false
    else charListLe xs ys

/-- The endpoint-pair normalisation `[a, b].sort().join('-')` shared by
`updateEdge`, `addEdge` and the generator's duplicate-edge check. -/
def normKey (a b : String) : String :=
  if charListLe a.data b.data then a ++ "-" ++ b else b ++ "-" ++ a

/-- The `Partial<Pick<DungeonNode, 'label' | 'content' | 'entrance'>>` argument
of `updateNode`: a present key overwrites the field. -/
structure NodeUpdates where
  label : Option String := none
  content : Option String := none
  entrance : Option Bool := none

/-- The `Partial<Pick<DungeonLink, ...>>` argument of `updateEdge`. -/
structure EdgeUpdates where
  connectionType : Option ConnectionType := none
  description : Option String := none
  clueRoomId : Option String := none

/-- The object spread `{ ...n, ...updates }`. -/
def applyNodeUpdates (n : DungeonNode) (u : NodeUpdates) : DungeonNode :=
  { n with
    label := u.label.getD n.label
    content := u.content.getD n.content
    entrance := u.entrance.getD n.entrance }

/-- The object spread `{ ...l, ...updates }`. -/
def applyEdgeUpdates (l : DungeonLink) (u : EdgeUpdates) : DungeonLink :=
  { l with
    connectionType := u.connectionType.getD l.connectionType
    description := u.description.or l.description
    clueRoomId := u.clueRoomId.or l.clueRoomId }

/-- src/utils/graphUtils.ts `updateNode`. -/
def updateNode (g : GraphData) (nodeId : String) (u : NodeUpdates) : GraphData :=
  { g with nodes := g.nodes.map fun n =>
      if n.id == nodeId then applyNodeUpdates n u else n }

/-- src/utils/graphUtils.ts `updateEdge`: matches by normalised endpoint pair. -/
def updateEdge (g : GraphData) (source target : String) (u : EdgeUpdates) :
    GraphData :=
  { g with links := g.links.map fun l =>
      if normKey l.source l.target == normKey source target
      then applyEdgeUpdates l u else l }

/-- src/utils/graphUtils.ts `addEdge`. -/
def addEdge (g : GraphData) (source target : String)
    (connectionType : ConnectionType) : GraphData :=
  if source == target then g
  else if g.links.any fun l => normKey l.source l.target == normKey source target
  then g
  else { g with links := g.links ++
          [{ source := source, target := target, connectionType := connectionType }] }

theorem charListLe_total (xs ys : List Char) :
    charListLe xs ys = true ∨ charListLe ys xs = true := by
  induction xs generalizing ys with
  | nil => left; rfl
  | cons x xs ih =>
    cases ys with
    | nil => right; rfl
    | cons y ys =>
      rcases Nat.lt_trichotomy x.toNat y.toNat with h | h | h
      · left; simp [charListLe, h]
      · rcases ih ys with h' | h' <;> [left; right] <;>
          simp [charListLe, h, Nat.lt_irrefl, h']
      · right; simp [charListLe, h]

theorem charListLe_antisymm {xs ys : List Char}
    (h1 : charListLe xs ys = true) (h2 : charListLe ys xs = true) : xs = ys := by
  induction xs generalizing ys with
  | nil =>
    cases ys with
    | nil => rfl
    | cons y ys => simp [charListLe] at h2
  | cons x xs ih =>
    cases ys with
    | nil => simp [charListLe] at h1
    | cons y ys =>
      rcases Nat.lt_trichotomy x.toNat y.toNat with h | h | h
      · simp [charListLe, h, Nat.lt_asymm h] at h2
      · have hxy : x = y := Char.ext (UInt32.eq_of_val_eq (Fin.ext h))
        subst hxy
        simp only [charListLe, Nat.lt_irrefl, if_false] at h1 h2
        exact congrArg (x :: ·) (ih h1 h2)
      · simp [charListLe, h, Nat.lt_asymm h] at h1

theorem normKey_comm (a b : String) : normKey a b = normKey b a := by
  unfold normKey
  rcases hab : charListLe a.data b.data <;> rcases hba : charListLe b.data a.data
  · rcases charListLe_total a.data b.data with h | h
    · rw [hab] at h; cases h
    · rw [hba] at h; cases h
  · rfl
  · rfl
  · have : a.data = b.data := charListLe_antisymm hab hba
    have : a = b := by cases a; cases b; exact congrArg String.mk this
    rw [this]

/-- src/utils/biteSizedGenerator.ts `LAYOUTS`: 10 layouts, each 6 edges
between node indices 0..5. -/
def LAYOUTS : List (List (Nat × Nat)) :=
  [[(0, 1), (1, 2), (2, 0), (0, 3), (1, 4), (2, 5)],
   [(0, 1), (1, 2), (2, 0), (0, 3), (0, 4), (4, 5)],
   [(0, 1), (1, 2), (2, 0), (0, 3), (1, 4), (1, 5)],
   [(0, 1), (1, 2), (2, 0), (0, 3), (0, 4), (0, 5)],
   [(0, 1), (1, 2), (2, 3), (3, 0), (0, 4), (2, 5)],
   [(0, 1), (1, 2), (2, 3), (3, 0), (0, 4), (4, 5)],
   [(0, 1), (1, 2), (2, 3), (3, 0), (0, 4), (0, 5)],
   [(0, 1), (1, 2), (2, 3), (3, 4), (4, 0), (0, 5)],
   [(0, 1), (1, 2), (2, 3), (0, 3), (3, 4), (4, 5)],
   [(0, 1), (1, 2), (2, 0), (2, 3), (0, 4), (1, 5)]]

/-- src/utils/biteSizedGenerator.ts `ROOM_TYPES`. -/
def ROOM_TYPES : List RoomType :=
  [.monster_treasure, .monster, .treasure, .empty, .empty, .empty]

/-- The destructuring swap `[out[i], out[j]] = [out[j], out[i]]`. -/
def listSwap {α : Type} (l : List α) (i j : Nat) : List α :=
  match l.get? i, l.get? j with
  | some a, some b => (l.set i b).set j a
  | _, _ => l

/-- src/utils/biteSizedGenerator.ts `shuffle` (Fisher-Yates): `js` carries the
draws `Math.floor(Math.random() * (i + 1))` for `i = n-1, ..., 1`. -/
def shuffle {α : Type} (arr : List α) (js : List Nat) : List α :=
  (((List.range arr.length).reverse.dropLast).zip js).foldl
    (fun out p => listSwap out p.1 p.2) arr

/-- Lines 52-56 of the generator: `shuffledTypes.map((t, i) => t === 'empty' &&
oneSpecial && i === shuffledTypes.indexOf('empty') ? 'special' : t)`. -/
def upgradeTypes (shuffledTypes : List RoomType) (oneSpecial : Bool) :
    List RoomType :=
  shuffledTypes.enum.map fun p =>
    if p.2 = RoomType.empty ∧ oneSpecial = true ∧
        p.1 = shuffledTypes.indexOf RoomType.empty
    then RoomType.special else p.2

/-- src/utils/biteSizedGenerator.ts `getDefaultContent`. -/
def getDefaultContent (roomType : RoomType) : String :=
  match roomType with
  | .monster_treasure =>
      "**Monster + Treasure**\n\nDescribe the encounter and the treasure here."
  | .monster => "**Monster**\n\nDescribe the encounter."
  | .treasure =>
      "**Treasure** (hidden or trapped)\n\nDescribe how it’s hidden or the trap."
  | .special => "**Special**\n\nPuzzle, trick, or unusual feature."
  | .empty => "**Empty**\n\nSet dressing and any minor details."

/-- The link-building loop of `generateBiteSizedDungeon` with its
duplicate-edge guard (`if (linkSet.has(key)) throw ...` becomes `none`);
`rolls k` models the `randomConnectionType()` draw for the k-th edge. -/
def buildLinks (nodeIds : List String) (rolls : Nat → Nat) :
    List (Nat × Nat) → List String → Nat → Option (List DungeonLink)
  | [], _, _ => some []
  | e :: rest, seen, k =>
    let idA := nodeIds.getD e.1 ""
    let idB := nodeIds.getD e.2 ""
    let key := normKey idA idB
    if key ∈ seen then none
    else
      (buildLinks nodeIds rolls rest (key :: seen) (k + 1)).map fun ls =>
        { source := idA, target := idB,
          connectionType := randomConnectionType (rolls k) } :: ls

/-- The `nodeIds.map((id, i) => ({...}))` node construction of the generator:
`types[i]` gives the room type, the entrance set is `{entranceIndex,
secondEntrance}`. -/
def mkNodes (nodeIds : List String) (types : List RoomType)
    (entranceIndex secondEntrance : Nat) : List DungeonNode :=
  nodeIds.enum.map fun p =>
    { id := p.2
      label := "Room " ++ toString (p.1 + 1)
      roomType := types.getD p.1 .empty
      content := getDefaultContent (types.getD p.1 .empty)
      entrance := p.1 == entranceIndex || p.1 == secondEntrance
      parentNodeId := none }

/-- src/utils/biteSizedGenerator.ts `generateBiteSizedDungeon`.
`layoutIndex` is the resolved `seedLayout ?? randomInt(0, LAYOUTS.length - 1)`;
`nodeIds` are the six freshly minted `generateId()` strings; `js` the shuffle
draws; `specialRoll` the draw `randomInt(0, 2)` (`oneSpecial` iff it is 0);
`entranceIndex`/`secondEntrance` the draws `randomInt(0, 5)`; `rolls` the
connection-type draws.  `none` models the thrown duplicate-edge error. -/
def generateBiteSizedDungeon (layoutIndex : Fin LAYOUTS.length)
    (nodeIds : List String) (js : List Nat)
    (specialRoll entranceIndex secondEntrance : Nat) (rolls : Nat → Nat) :
    Option GraphData :=
  (buildLinks nodeIds rolls (LAYOUTS.get layoutIndex) [] 0).map fun links =>
    { nodes := mkNodes nodeIds
        (upgradeTypes (shuffle ROOM_TYPES js) (specialRoll == 0))
        entranceIndex secondEntrance
      links := links }

/-- src/utils/graphUtils.ts `attachDungeon`; `sub` is the generated unit and
`corridorRoll` the draw behind `randomConnectionType()` for the corridor. -/
def attachDungeon (g : GraphData) (nodeId : String) (sub : GraphData)
    (corridorRoll : Nat) : GraphData :=
  match g.nodes.find? (fun n => n.id == nodeId) with
  | none => g
  | some _ =>
    let bridgeNodeId := (sub.nodes.headD default).id
    let corridorType := randomConnectionType corridorRoll
    let newNodes := sub.nodes.map fun n =>
      { n with parentNodeId := some nodeId, entrance := false }
    let newLinks := sub.links
    let connectingLink : DungeonLink :=
      { source := nodeId, target := bridgeNodeId, connectionType := corridorType }
    { nodes := g.nodes ++ newNodes, links := g.links ++ newLinks ++ [connectingLink] }

/-- The re-created external edge of `replaceNodeWithDungeon` (lines 123-132):
category, description and clue-room reference are copied verbatim. -/
def reattachLink (bridgeNodeId nodeId : String) (oldLink : DungeonLink) :
    DungeonLink :=
  { source := bridgeNodeId
    target := if oldLink.source == nodeId then oldLink.target else oldLink.source
    connectionType := oldLink.connectionType
    description := oldLink.description
    clueRoomId := oldLink.clueRoomId }

/-- src/utils/graphUtils.ts `replaceNodeWithDungeon`; `sub` is the freshly
generated unit (`generateBiteSizedDungeon()`), whose first room is the bridge. -/
def replaceNodeWithDungeon (g : GraphData) (nodeId : String) (sub : GraphData) :
    GraphData × String :=
  match g.nodes.find? (fun n => n.id == nodeId) with
  | none => (g, nodeId)
  | some node =>
    let outgoingEdges := g.links.filter fun l =>
      l.source == nodeId || l.target == nodeId
    let bridgeNodeId := (sub.nodes.headD default).id
    let newNodes := sub.nodes.map fun n =>
      if n.id == bridgeNodeId then
        { n with parentNodeId := some nodeId, entrance := node.entrance,
                 label := node.label, content := node.content }
      else { n with parentNodeId := some nodeId, entrance := false }
    let newLinks := sub.links
    let nodesWithoutOld := g.nodes.filter fun n => n.id != nodeId
    let linksWithoutOld := g.links.filter fun l =>
      l.source != nodeId && l.target != nodeId
    let reattachLinks := outgoingEdges.map (reattachLink bridgeNodeId nodeId)
    ({ nodes := nodesWithoutOld ++ newNodes,
       links := linksWithoutOld ++ newLinks ++ reattachLinks }, bridgeNodeId)

/-!  Topology analysis (src/components/DungeonGraph.tsx).  The two analysers
work on a plain node-id set and `{source, target}` pair list; we keep them
generic in the vertex type so that the same verified search is also usable on
the `Nat`-indexed layout catalog. -/

/-- The adjacency lists built by both analysers: for every link, `target` is
pushed onto `adj[source]` and `source` onto `adj[target]`. -/
def nbrList {α : Type} [DecidableEq α] (links : List (α × α)) (v : α) :
    List α :=
  links.foldl
    (fun acc e =>
      acc ++ (if e.1 = v then [e.2] else []) ++ (if e.2 = v then [e.1] else []))
    []

/-- One neighbour step of the breadth-first loop: `if (!visited.has(nid)) {
visited.add(nid); queue.push(nid) }`. -/
def bfsVisit {α : Type} [DecidableEq α] (acc : List α × List α) (nid : α) :
    List α × List α :=
  if nid ∈ acc.1 then acc else (acc.1 ++ [nid], acc.2 ++ [nid])

/-- The `while (queue.length)` loop of `getBridgeLinkKeys`'s reachability
search, with explicit fuel (the JS loop terminates because every enqueued node
is freshly visited). -/
def bfsAux {α : Type} [DecidableEq α] (nbr : α → List α) :
    Nat → List α → List α → List α
  | 0, visited, _ => visited
  | _ + 1, visited, [] => visited
  | fuel + 1, visited, id :: rest =>
    let p := (nbr id).foldl bfsVisit (visited, rest)
    bfsAux nbr fuel p.1 p.2

/-- Breadth-first reachability from `start` (the inner search of
`getBridgeLinkKeys`); the fuel provably suffices when all link endpoints lie
in `nodeIds`. -/
def bfs {α : Type} [DecidableEq α] (nodeIds : List α) (links : List (α × α))
    (start : α) : List α :=
  bfsAux (nbrList links) (2 * nodeIds.length + 2) [start] [start]

/-- The per-edge exclusion of `getBridgeLinkKeys`: drop every link joining the
unordered pair `{s, t}`. -/
def removePair (links : List (String × String)) (s t : String) :
    List (String × String) :=
  links.filter fun e => !((e.1 == s && e.2 == t) || (e.1 == t && e.2 == s))

/-- src/components/DungeonGraph.tsx `getBridgeLinkKeys`.  The JS function
accumulates keys in a `Set`; membership in the returned list is the model of
membership in that set. -/
def getBridgeLinkKeys (nodeIds : List String) (links : List (String × String)) :
    List String :=
  links.filterMap fun e =>
    if e.2 ∈ bfs nodeIds (removePair links e.1 e.2) e.1 then none
    else some (normKey e.1 e.2)

/-- One neighbour step of the depth labelling: `if (!depths.has(nid)) {
depths.set(nid, d); next.push(nid) }`. -/
def insertDepth (d : Nat) (acc : List (String × Nat) × List String)
    (nid : String) : List (String × Nat) × List String :=
  if (acc.1.lookup nid).isSome then acc
  else (acc.1 ++ [(nid, d)], acc.2 ++ [nid])

/-- One round of `getDepthsFromEntrances`: for every frontier node `id`,
label each unlabelled neighbour with `depths.get(id)! + 1` and collect it
into the next frontier. -/
def processFrontier (nbr : String → List String)
    (depths : List (String × Nat)) (frontier : List String) :
    List (String × Nat) × List String :=
  frontier.foldl
    (fun acc id => (nbr id).foldl (insertDepth ((acc.1.lookup id).getD 0 + 1)) acc)
    (depths, [])

/-- The `while (frontier.length)` loop, with explicit fuel. -/
def bfsDepthLoop (nbr : String → List String) :
    Nat → List (String × Nat) → List String → List (String × Nat)
  | 0, depths, _ => depths
  | _ + 1, depths, [] => depths
  | fuel + 1, depths, frontier =>
    let p := processFrontier nbr depths frontier
    bfsDepthLoop nbr fuel p.1 p.2

/-- `roots.forEach(id => depths.set(id, 0))` (association-list model of the
JS `Map`; re-setting an existing key to 0 is dropped). -/
def initDepths (roots : List String) : List (String × Nat) :=
  roots.foldl
    (fun acc id => if (acc.lookup id).isSome then acc else acc ++ [(id, 0)]) []

/-- src/components/DungeonGraph.tsx `getDepthsFromEntrances`. -/
def getDepthsFromEntrances (nodeIds : List String)
    (links : List (String × String)) (entranceIds : List String) :
    List (String × Nat) :=
  let nbr := nbrList links
  let roots := if 0 < entranceIds.length then entranceIds else nodeIds.take 1
  bfsDepthLoop nbr (nodeIds.length + roots.length + 2) (initDepths roots) roots

/-!  Graph-theoretic vocabulary used to state the claims: undirected
adjacency, walks of a given length, reachability, distance from a root set,
and cycles. -/

/-- `u` and `v` are joined by some link, in either stored direction. -/
def Adj {α : Type} (links : List (α × α)) (u v : α) : Prop :=
  (u, v) ∈ links ∨ (v, u) ∈ links

instance {α : Type} [DecidableEq α] (links : List (α × α)) (u v : α) :
    Decidable (Adj links u v) :=
  decidable_of_iff ((u, v) ∈ links ∨ (v, u) ∈ links) Iff.rfl

/-- A walk of `n` edges from `u` to `w` along links. -/
inductive PathLen {α : Type} (links : List (α × α)) : α → α → Nat → Prop
  | refl (v : α) : PathLen links v v 0
  | tail {u v w : α} {n : Nat} :
      PathLen links u v n → Adj links v w → PathLen links u w (n + 1)

/-- `v` is reachable from `u` along links (in the undirected sense). -/
def Reachable {α : Type} (links : List (α × α)) (u v : α) : Prop :=
  ∃ n, PathLen links u v n

/-- There is a walk of `n` edges from some root to `v`. -/
def rootDist {α : Type} (links : List (α × α)) (roots : List α) (v : α)
    (n : Nat) : Prop :=
  ∃ r ∈ roots, PathLen links r v n

/-- `d` is the minimum edge-count distance from the root set to `v`. -/
def IsMinRootDist {α : Type} (links : List (α × α)) (roots : List α) (v : α)
    (d : Nat) : Prop :=
  rootDist links roots v d ∧ ∀ e, e < d → ¬ rootDist links roots v e

/-- `c` lists the successive vertices of a cycle: at least 3 edges, closed,
consecutive vertices adjacent, and no repeated vertex except the closing one. -/
def IsCycle {α : Type} (links : List (α × α)) (c : List α) : Prop :=
  4 ≤ c.length ∧ c.head? = c.getLast? ∧ List.Chain' (Adj links) c ∧
    c.dropLast.Nodup

/-- Executable check for `List.Chain' (Adj links)`. -/
def chainB {α : Type} [DecidableEq α] (links : List (α × α)) : List α → Bool
  | [] => true
  | [_] => true
  | x :: y :: rest => decide (Adj links x y) && chainB links (y :: rest)

theorem chainB_iff {α : Type} [DecidableEq α] (links : List (α × α)) :
    ∀ c : List α, chainB links c = true ↔ List.Chain' (Adj links) c := by
  intro c
  match c with
  | [] => simp [chainB]
  | [x]  => simp [chainB]
  | x :: y :: rest =>
    rw [List.chain'_cons]
    simp only [chainB, Bool.and_eq_true, decide_eq_true_eq]
    exact and_congr Iff.rfl (chainB_iff links (y :: rest))

instance {α : Type} [DecidableEq α] (links : List (α × α)) (c : List α) :
    Decidable (IsCycle links c) :=
  decidable_of_iff (4 ≤ c.length ∧ c.head? = c.getLast? ∧
    chainB links c = true ∧ c.dropLast.Nodup)
    (by unfold IsCycle; rw [chainB_iff])

/-- The graph contains at least one cycle. -/
def HasCycle {α : Type} (links : List (α × α)) : Prop :=
  ∃ c, IsCycle links c

/-- The endpoint pairs of a graph's links. -/
def graphPairs (g : GraphData) : List (String × String) :=
  g.links.map fun l => (l.source, l.target)

theorem Adj.symm {α : Type} {links : List (α × α)} {u v : α}
    (h : Adj links u v) : Adj links v u :=
  h.elim Or.inr Or.inl

theorem pathLen_head {α : Type} {links : List (α × α)} {u v w : α} {n : Nat}
    (ha : Adj links u v) (hp : PathLen links v w n) :
    PathLen links u w (n + 1) := by
  induction hp with
  | refl => exact .tail (.refl u) ha
  | tail _ ha' ih => exact .tail ih ha'

theorem pathLen_symm {α : Type} {links : List (α × α)} {u v : α} {n : Nat}
    (hp : PathLen links u v n) : PathLen links v u n := by
  induction hp with
  | refl => exact .refl _
  | tail _ ha ih => exact pathLen_head ha.symm ih

theorem pathLen_trans {α : Type} {links : List (α × α)} {u v w : α} {n m : Nat}
    (h1 : PathLen links u v n) (h2 : PathLen links v w m) :
    PathLen links u w (n + m) := by
  induction h2 with
  | refl => exact h1
  | tail _ ha ih => exact .tail ih ha

theorem reachable_refl {α : Type} (links : List (α × α)) (v : α) :
    Reachable links v v :=
  ⟨0, .refl v⟩

theorem reachable_symm {α : Type} {links : List (α × α)} {u v : α}
    (h : Reachable links u v) : Reachable links v u :=
  h.elim fun n hp => ⟨n, pathLen_symm hp⟩

theorem reachable_trans {α : Type} {links : List (α × α)} {u v w : α}
    (h1 : Reachable links u v) (h2 : Reachable links v w) :
    Reachable links u w := by
  obtain ⟨n, h1⟩ := h1
  obtain ⟨m, h2⟩ := h2
  exact ⟨n + m, pathLen_trans h1 h2⟩

theorem mem_foldl_nbr {α : Type} [DecidableEq α] (links : List (α × α))
    (v x : α) (acc : List α) :
    (x ∈ links.foldl
        (fun acc e => acc ++ (if e.1 = v then [e.2] else []) ++
          (if e.2 = v then [e.1] else [])) acc) ↔
      x ∈ acc ∨ Adj links v x := by
  induction links generalizing acc with
  | nil => simp [Adj]
  | cons e rest ih =>
    rw [List.foldl_cons, ih]
    by_cases h1 : e.1 = v <;> by_cases h2 : e.2 = v <;>
      simp [Adj, h1, h2, Prod.ext_iff, List.mem_cons] <;>
      constructor <;> intro h <;> tauto

theorem mem_nbrList {α : Type} [DecidableEq α] {links : List (α × α)}
    {v x : α} : x ∈ nbrList links v ↔ Adj links v x := by
  unfold nbrList
  rw [mem_foldl_nbr]
  simp

theorem foldl_bfsVisit_spec {α : Type} [DecidableEq α] (l vis q : List α) :
    ∃ new : List α,
      (l.foldl bfsVisit (vis, q)).1 = vis ++ new ∧
      (l.foldl bfsVisit (vis, q)).2 = q ++ new ∧
      new.Nodup ∧
      (∀ x ∈ new, x ∈ l ∧ x ∉ vis) ∧
      (∀ x ∈ l, x ∈ vis ++ new) := by
  induction l generalizing vis q with
  | nil => exact ⟨[], by simp⟩
  | cons x xs ih =>
    rw [List.foldl_cons]
    by_cases hx : x ∈ vis
    · have hstep : bfsVisit (vis, q) x = (vis, q) := by simp [bfsVisit, hx]
      rw [hstep]
      obtain ⟨new, h1, h2, h3, h4, h5⟩ := ih vis q
      refine ⟨new, h1, h2, h3,
        fun y hy => ⟨List.mem_cons_of_mem _ (h4 y hy).1, (h4 y hy).2⟩,
        fun y hy => ?_⟩
      rcases List.mem_cons.mp hy with rfl | hy
      · exact List.mem_append_left _ hx
      · exact h5 y hy
    · have hstep : bfsVisit (vis, q) x = (vis ++ [x], q ++ [x]) := by
        simp [bfsVisit, hx]
      rw [hstep]
      obtain ⟨new, h1, h2, h3, h4, h5⟩ := ih (vis ++ [x]) (q ++ [x])
      refine ⟨x :: new, ?_, ?_, ?_, ?_, ?_⟩
      · rw [h1, List.append_assoc]; rfl
      · rw [h2, List.append_assoc]; rfl
      · refine List.nodup_cons.mpr ⟨fun hc => ?_, h3⟩
        exact (h4 x hc).2 (List.mem_append_right _ (List.mem_singleton_self x))
      · intro y hy
        rcases List.mem_cons.mp hy with rfl | hy
        · exact ⟨List.mem_cons_self y xs, hx⟩
        · refine ⟨List.mem_cons_of_mem _ (h4 y hy).1, fun hc => ?_⟩
          exact (h4 y hy).2 (List.mem_append_left _ hc)
      · intro y hy
        rcases List.mem_cons.mp hy with rfl | hy
        · exact List.mem_append_right _ (List.mem_cons_self y new)
        · have := h5 y hy
          simpa [List.append_assoc] using this

theorem bfsAux_spec {α : Type} [DecidableEq α] (nodeIds : List α)
    (nbr : α → List α) (P : α → Prop)
    (hnbr_sub : ∀ v w, w ∈ nbr v → w ∈ nodeIds)
    (hPstep : ∀ v w, P v → w ∈ nbr v → P w) :
    ∀ (fuel : Nat) (visited queue : List α),
      queue ⊆ visited →
      queue.Nodup →
      (∀ v ∈ visited, P v) →
      (∀ v ∈ visited, v ∉ queue → ∀ w ∈ nbr v, w ∈ visited) →
      queue.length + 2 * (nodeIds.toFinset \ visited.toFinset).card ≤ fuel →
      visited ⊆ bfsAux nbr fuel visited queue ∧
      (∀ v ∈ bfsAux nbr fuel visited queue, P v) ∧
      (∀ v ∈ bfsAux nbr fuel visited queue, ∀ w ∈ nbr v,
        w ∈ bfsAux nbr fuel visited queue) := by
  intro fuel
  induction fuel with
  | zero =>
    intro visited queue hsub hnodup hP hclosed hfuel
    have hq : queue = [] := by
      cases queue with
      | nil => rfl
      | cons a l => simp at hfuel
    subst hq
    refine ⟨fun v hv => hv, hP, fun v hv w hw => ?_⟩
    exact hclosed v hv (by simp) w hw
  | succ f ih =>
    intro visited queue hsub hnodup hP hclosed hfuel
    cases queue with
    | nil =>
      refine ⟨fun v hv => hv, hP, fun v hv w hw => ?_⟩
      exact hclosed v hv (by simp) w hw
    | cons id rest =>
      obtain ⟨new, hv, hq, hnodup_new, hnew, hcover⟩ :=
        foldl_bfsVisit_spec (nbr id) visited rest
      have hid_vis : id ∈ visited := hsub (List.mem_cons_self id rest)
      have hnew_node : ∀ x ∈ new, x ∈ nodeIds := fun x hx =>
        hnbr_sub id x (hnew x hx).1
      have hstep : bfsAux nbr (f + 1) visited (id :: rest) =
          bfsAux nbr f (visited ++ new) (rest ++ new) := by
        show bfsAux nbr f ((nbr id).foldl bfsVisit (visited, rest)).1
            ((nbr id).foldl bfsVisit (visited, rest)).2 = _
        rw [hv, hq]
      rw [hstep]
      have hcard : (nodeIds.toFinset \ (visited ++ new).toFinset).card =
          (nodeIds.toFinset \ visited.toFinset).card - new.length ∧
          new.length ≤ (nodeIds.toFinset \ visited.toFinset).card := by
        have hsubF : new.toFinset ⊆ nodeIds.toFinset \ visited.toFinset := by
          intro x hx
          rw [List.mem_toFinset] at hx
          rw [Finset.mem_sdiff, List.mem_toFinset, List.mem_toFinset]
          exact ⟨hnew_node x hx, (hnew x hx).2⟩
        have hlen : new.toFinset.card = new.length :=
          List.toFinset_card_of_nodup hnodup_new
        constructor
        · rw [List.toFinset_append, ← Finset.sup_eq_union, ← sdiff_sdiff,
            Finset.card_sdiff hsubF, hlen]
        · rw [← hlen]; exact Finset.card_le_card hsubF
      have hih := ih (visited ++ new) (rest ++ new)
        (by
          intro x hx
          rcases List.mem_append.mp hx with hx | hx
          · exact List.mem_append_left _ (hsub (List.mem_cons_of_mem _ hx))
          · exact List.mem_append_right _ hx)
        (by
          refine (List.nodup_cons.mp hnodup).2.append hnodup_new ?_
          intro x hx hx'
          exact (hnew x hx').2 (hsub (List.mem_cons_of_mem _ hx)))
        (by
          intro v hv'
          rcases List.mem_append.mp hv' with hv' | hv'
          · exact hP v hv'
          · exact hPstep id v (hP id hid_vis) (hnew v hv').1)
        (by
          intro v hv' hvq w hw
          rcases List.mem_append.mp hv' with hv' | hv'
          · by_cases hvid : v = id
            · subst hvid
              exact hcover w hw
            · have hvrest : v ∉ rest := fun hc =>
                hvq (List.mem_append_left _ hc)
              have : v ∉ id :: rest := by
                simp [hvid, hvrest]
              exact List.mem_append_left _ (hclosed v hv' this w hw)
          · exact absurd (List.mem_append_right rest hv') hvq)
        (by
          rw [List.length_append, hcard.1]
          have := hcard.2
          simp only [List.length_cons] at hfuel
          omega)
      refine ⟨?_, hih.2.1, hih.2.2⟩
      intro x hx
      exact hih.1 (List.mem_append_left _ hx)

theorem mem_bfs_iff {α : Type} [DecidableEq α] (nodeIds : List α)
    (links : List (α × α)) (s v : α)
    (hend : ∀ e ∈ links, e.1 ∈ nodeIds ∧ e.2 ∈ nodeIds) :
    v ∈ bfs nodeIds links s ↔ Reachable links s v := by
  have hnbr_sub : ∀ a w, w ∈ nbrList links a → w ∈ nodeIds := by
    intro a w hw
    rcases mem_nbrList.mp hw with h | h
    · exact (hend _ h).2
    · exact (hend _ h).1
  have hspec := bfsAux_spec nodeIds (nbrList links) (Reachable links s)
    hnbr_sub
    (fun a w ha hw => reachable_trans ha ⟨1, .tail (.refl a) (mem_nbrList.mp hw)⟩)
    (2 * nodeIds.length + 2) [s] [s]
    (fun x hx => hx) (List.nodup_singleton s)
    (by intro x hx; rw [List.mem_singleton] at hx; rw [hx]; exact reachable_refl links _)
    (by intro x hx hx'; rw [List.mem_singleton] at hx; simp [hx] at hx')
    (by
      have h1 : (nodeIds.toFinset \ [s].toFinset).card ≤ nodeIds.length :=
        le_trans (Finset.card_le_card (Finset.sdiff_subset))
          (List.toFinset_card_le nodeIds)
      simp only [List.length_singleton]
      omega)
  constructor
  · intro hv
    exact hspec.2.1 v hv
  · rintro ⟨n, hp⟩
    unfold bfs
    induction hp with
    | refl => exact hspec.1 (List.mem_singleton_self s)
    | tail hp' ha ih =>
      exact hspec.2.2 _ ih _ (mem_nbrList.mpr ha)

theorem addEdge_self (g : GraphData) (a : String) (t : ConnectionType) :
    addEdge g a a t = g := by
  simp [addEdge]

theorem removePair_hend {nodeIds : List String} {links : List (String × String)}
    (hend : ∀ e ∈ links, e.1 ∈ nodeIds ∧ e.2 ∈ nodeIds) (s t : String) :
    ∀ e ∈ removePair links s t, e.1 ∈ nodeIds ∧ e.2 ∈ nodeIds :=
  fun e he => hend e (List.mem_of_mem_filter he)

/-- C5 (amended): a key is returned by `getBridgeLinkKeys` iff some
non-self-loop edge with that normalised key has its endpoints disconnected
once EVERY link of that unordered pair is removed (all parallel copies at
once, not just the single edge).  In particular a self-loop never yields a
key, and a doubled edge with no other path IS marked even though removing a
single copy would keep its endpoints connected. -/
theorem bridge_keys_spec (nodeIds : List String)
    (links : List (String × String))
    (hend : ∀ e ∈ links, e.1 ∈ nodeIds ∧ e.2 ∈ nodeIds) (k : String) :
    k ∈ getBridgeLinkKeys nodeIds links ↔
      ∃ e ∈ links, e.1 ≠ e.2 ∧ normKey e.1 e.2 = k ∧
        ¬ Reachable (removePair links e.1 e.2) e.1 e.2 := by
  unfold getBridgeLinkKeys
  rw [List.mem_filterMap]
  constructor
  · rintro ⟨e, he, hsome⟩
    by_cases hb : e.2 ∈ bfs nodeIds (removePair links e.1 e.2) e.1
    · simp [hb] at hsome
    · simp only [hb, if_false, Option.some.injEq] at hsome
      have hreach : ¬ Reachable (removePair links e.1 e.2) e.1 e.2 := fun hc =>
        hb ((mem_bfs_iff nodeIds _ _ _ (removePair_hend hend e.1 e.2)).mpr hc)
      refine ⟨e, he, fun hne => ?_, hsome, hreach⟩
      exact hreach (hne ▸ reachable_refl _ e.1)
  · rintro ⟨e, he, _, hk, hreach⟩
    refine ⟨e, he, ?_⟩
    have hb : e.2 ∉ bfs nodeIds (removePair links e.1 e.2) e.1 := fun hc =>
      hreach ((mem_bfs_iff nodeIds _ _ _ (removePair_hend hend e.1 e.2)).mp hc)
    simp [hb, hk]

/-- Witness for `bridge_keys_spec` on a concrete path graph. -/
theorem bridge_keys_spec_witness :
    (∀ e ∈ [("a", "b"), ("b", "c")],
      e.1 ∈ ["a", "b", "c"] ∧ e.2 ∈ ["a", "b", "c"]) ∧
    ("a-b" ∈ getBridgeLinkKeys ["a", "b", "c"] [("a", "b"), ("b", "c")] ↔
      ∃ e ∈ [("a", "b"), ("b", "c")], e.1 ≠ e.2 ∧ normKey e.1 e.2 = "a-b" ∧
        ¬ Reachable (removePair [("a", "b"), ("b", "c")] e.1 e.2) e.1 e.2) :=
  ⟨by decide, bridge_keys_spec _ _ (by decide) "a-b"⟩

/-- C5 counterexample: in the doubled-edge graph on `{a, b}`, the code marks
the edge as a bridge, yet removing only the single edge (keeping its parallel
copy) leaves the endpoints connected — so "bridge iff removing that single
edge disconnects its endpoints" does not describe the code. -/
theorem bridge_single_edge_counterexample :
    "a-b" ∈ getBridgeLinkKeys ["a", "b"] [("a", "b"), ("a", "b")] ∧
    Reachable [("a", "b")] "a" "b" :=
  ⟨by decide, ⟨1, .tail (.refl "a") (Or.inl (List.mem_singleton_self _))⟩⟩

/-- C8: `addEdge` is idempotent on an unordered pair — adding the same pair
again (in either orientation, with any category) returns the graph unchanged —
and adding a self-connection is always a no-op. -/
theorem addEdge_idempotent (g : GraphData) (a b : String)
    (t t' : ConnectionType) :
    addEdge (addEdge g a b t) a b t' = addEdge g a b t ∧
    addEdge (addEdge g a b t) b a t' = addEdge g a b t ∧
    addEdge g a a t = g := by
  refine ⟨?_, ?_, addEdge_self g a t⟩ <;> by_cases hab : a = b
  · subst hab; simp [addEdge_self]
  · by_cases hex : g.links.any fun l => normKey l.source l.target == normKey a b
    · have h1 : addEdge g a b t = g := by simp [addEdge, hab, hex]
      rw [h1]; simp [addEdge, hab, hex]
    · have h1 : addEdge g a b t =
          { g with links := g.links ++
            [{ source := a, target := b, connectionType := t }] } := by
        simp [addEdge, hab, hex]
      rw [h1]; simp [addEdge, hab]
  · subst hab; simp [addEdge_self]
  · by_cases hex : g.links.any fun l => normKey l.source l.target == normKey a b
    · have h1 : addEdge g a b t = g := by simp [addEdge, hab, hex]
      rw [h1]
      have hex' : g.links.any (fun l => normKey l.source l.target == normKey b a) := by
        simpa [normKey_comm b a] using hex
      simp [addEdge, Ne.symm hab, hex']
    · have h1 : addEdge g a b t =
          { g with links := g.links ++
            [{ source := a, target := b, connectionType := t }] } := by
        simp [addEdge, hab, hex]
      rw [h1]; simp [addEdge, Ne.symm hab, normKey_comm b a]

/-- C9: the connection roller's distribution over the uniform roll 0..999 is
exactly open 447/1000, closed 223/1000, trapped 110/1000, hazardous 110/1000,
secret 110/1000, summing to 1. -/
theorem randomConnectionType_distribution :
    ((List.range 1000).countP fun r => randomConnectionType r == .«open») = 447 ∧
    ((List.range 1000).countP fun r => randomConnectionType r == .closed) = 223 ∧
    ((List.range 1000).countP fun r => randomConnectionType r == .trapped) = 110 ∧
    ((List.range 1000).countP fun r => randomConnectionType r == .hazardous) = 110 ∧
    ((List.range 1000).countP fun r => randomConnectionType r == .secret) = 110 ∧
    447 + 223 + 110 + 110 + 110 = 1000 := by
  set_option maxRecDepth 10000 in decide

/-- The room-type lists produced by the generator at layout 0, fresh ids
`r0..r5`, no shuffle draws (the shuffled multiset is then `ROOM_TYPES`
itself, whose first `empty` sits at index 3), entrances at 0, all connection
rolls 0, as a function of the `randomInt(0, 2)` draw deciding the upgrade. -/
def c3Gen (specialRoll : Nat) : Option (List RoomType) :=
  (generateBiteSizedDungeon ⟨0, by decide⟩ ["r0", "r1", "r2", "r3", "r4", "r5"]
      [] specialRoll 0 0 fun _ => 0).map fun g => g.nodes.map fun n => n.roomType

/-- C3: evaluating the generator over the three equiprobable values of the
`randomInt(0, 2)` upgrade draw shows that the upgrade fires for exactly one of
the three (probability 1/3, not 50%), and that when it fires it always lands
on the first `empty` position of the shuffled list (index 3 here) — positions
4 and 5, which also hold `empty`, are never upgraded. -/
theorem special_upgrade_eval :
    c3Gen 0 = some [.monster_treasure, .monster, .treasure, .special, .empty, .empty] ∧
    c3Gen 1 = some [.monster_treasure, .monster, .treasure, .empty, .empty, .empty] ∧
    c3Gen 2 = some [.monster_treasure, .monster, .treasure, .empty, .empty, .empty] ∧
    ((List.range 3).countP fun r => r == 0) = 1 := by
  refine ⟨by decide, by decide, by decide, by decide⟩

/-- C4 counterexample: `addEdge` performs no existence check on its endpoint
identifiers — on the empty graph it appends a connection whose endpoints
reference no room at all, instead of being a silent no-op. -/
theorem addEdge_no_validation_counterexample :
    addEdge { nodes := [], links := [] } "a" "b" .«open» ≠
      { nodes := [], links := [] } ∧
    ∃ l ∈ (addEdge { nodes := [], links := [] } "a" "b" .«open»).links,
      ∀ n ∈ (addEdge { nodes := [], links := [] } "a" "b" .«open»).nodes,
        l.source ≠ n.id ∧ l.target ≠ n.id := by
  decide

theorem find?_id_eq_none {g : GraphData} {nodeId : String}
    (hn : nodeId ∉ g.nodes.map fun n => n.id) :
    g.nodes.find? (fun n => n.id == nodeId) = none := by
  refine List.find?_eq_none.mpr fun n hmem => ?_
  simp only [beq_iff_eq]
  intro h
  exact hn (h ▸ List.mem_map_of_mem (fun n => n.id) hmem)

/-- C4 (amended): `updateNode`, `updateEdge`, `attachDungeon` and
`replaceNodeWithDungeon` are silent no-ops when the referenced room or edge is
absent; `addEdge` is excluded, as it validates nothing. -/
theorem invalid_ref_noop (g : GraphData) (nodeId s t : String)
    (u : NodeUpdates) (eu : EdgeUpdates) (sub sub2 : GraphData) (r : Nat)
    (hn : nodeId ∉ g.nodes.map fun n => n.id)
    (he : ∀ l ∈ g.links, normKey l.source l.target ≠ normKey s t) :
    updateNode g nodeId u = g ∧
    updateEdge g s t eu = g ∧
    attachDungeon g nodeId sub r = g ∧
    replaceNodeWithDungeon g nodeId sub2 = (g, nodeId) := by
  refine ⟨?_, ?_, ?_, ?_⟩
  · have h : ∀ n ∈ g.nodes,
        (if n.id == nodeId then applyNodeUpdates n u else n) = id n := by
      intro n hmem
      have : (n.id == nodeId) = false := by
        simp only [beq_eq_false_iff_ne]
        intro h
        exact hn (h ▸ List.mem_map_of_mem (fun n => n.id) hmem)
      simp [this]
    show { g with nodes := _ } = g
    rw [List.map_congr_left h, List.map_id]
  · have h : ∀ l ∈ g.links,
        (if normKey l.source l.target == normKey s t
         then applyEdgeUpdates l eu else l) = id l := by
      intro l hmem
      have : (normKey l.source l.target == normKey s t) = false := by
        simp only [beq_eq_false_iff_ne]; exact he l hmem
      simp [this]
    show { g with links := _ } = g
    rw [List.map_congr_left h, List.map_id]
  · unfold attachDungeon
    rw [find?_id_eq_none hn]
  · unfold replaceNodeWithDungeon
    rw [find?_id_eq_none hn]

/-- Witness for `invalid_ref_noop` at a concrete graph and absent ids. -/
theorem invalid_ref_noop_witness :
    ("zz" ∉ (GraphData.mk
        [{ id := "x", label := "X", roomType := .empty, content := "" }]
        []).nodes.map (fun n => n.id) ∧
      ∀ l ∈ (GraphData.mk
        [{ id := "x", label := "X", roomType := .empty, content := "" }]
        []).links, normKey l.source l.target ≠ normKey "p" "q") ∧
    (updateNode (GraphData.mk
        [{ id := "x", label := "X", roomType := .empty, content := "" }]
        []) "zz" {} = GraphData.mk
        [{ id := "x", label := "X", roomType := .empty, content := "" }] [] ∧
      updateEdge (GraphData.mk
        [{ id := "x", label := "X", roomType := .empty, content := "" }]
        []) "p" "q" {} = GraphData.mk
        [{ id := "x", label := "X", roomType := .empty, content := "" }] [] ∧
      attachDungeon (GraphData.mk
        [{ id := "x", label := "X", roomType := .empty, content := "" }]
        []) "zz" (GraphData.mk [] []) 0 = GraphData.mk
        [{ id := "x", label := "X", roomType := .empty, content := "" }] [] ∧
      replaceNodeWithDungeon (GraphData.mk
        [{ id := "x", label := "X", roomType := .empty, content := "" }]
        []) "zz" (GraphData.mk [] []) = (GraphData.mk
        [{ id := "x", label := "X", roomType := .empty, content := "" }] [], "zz")) :=
  ⟨⟨by decide, by decide⟩,
    invalid_ref_noop _ "zz" "p" "q" {} {} (GraphData.mk [] [])
      (GraphData.mk [] []) 0 (by decide) (by decide)⟩

/-- A concrete generated six-room unit (layout 0, ids `s0..s5`, no special,
entrance at position 0, all connection rolls 0), used as the sub-dungeon in
the explode/replace scenarios. -/
def subUnit : GraphData :=
  (generateBiteSizedDungeon ⟨0, by decide⟩ ["s0", "s1", "s2", "s3", "s4", "s5"]
      [] 1 0 0 fun _ => 0).getD { nodes := [], links := [] }

/-- `subUnit` really is a generator output. -/
theorem subUnit_generated :
    generateBiteSizedDungeon ⟨0, by decide⟩ ["s0", "s1", "s2", "s3", "s4", "s5"]
      [] 1 0 0 (fun _ => 0) = some subUnit := by
  rfl

/-- A two-room graph whose secret connection's clue room is `R` itself. -/
def clueGraph : GraphData :=
  { nodes :=
      [{ id := "R", label := "Reliquary", roomType := .empty, content := "" },
       { id := "A", label := "Antechamber", roomType := .empty, content := "" }]
    links :=
      [{ source := "R", target := "A", connectionType := .secret,
         description := some "sliding panel", clueRoomId := some "R" }] }

/-- C10: exploding room `R` of `clueGraph` re-creates the secret edge with its
`clueRoomId` still `R`, while no room `R` exists any more — the clue-room
reference dangles rather than being remapped to the bridge room. -/
theorem clue_dangling_after_replace :
    (∃ l ∈ (replaceNodeWithDungeon clueGraph "R" subUnit).1.links,
      l.clueRoomId = some "R") ∧
    ∀ n ∈ (replaceNodeWithDungeon clueGraph "R" subUnit).1.nodes,
      n.id ≠ "R" := by
  decide

theorem lookup_cons {β : Type} (v x : String) (d : β) (xs : List (String × β)) :
    List.lookup v ((x, d) :: xs) = if v = x then some d else List.lookup v xs := by
  by_cases h : v = x
  · simp [List.lookup, h]
  · have hb : (v == x) = false := beq_eq_false_iff_ne.mpr h
    simp [List.lookup, hb, h]

theorem lookup_map_const (new : List String) (d : Nat) (v : String) :
    (new.map fun x => (x, d)).lookup v = if v ∈ new then some d else none := by
  induction new with
  | nil => simp
  | cons x xs ih =>
    by_cases h : v = x <;> simp [lookup_cons, h, ih]

theorem lookup_isSome_iff (l : List (String × Nat)) (v : String) :
    (l.lookup v).isSome ↔ v ∈ l.map Prod.fst := by
  induction l with
  | nil => simp
  | cons p ps ih =>
    obtain ⟨a, b⟩ := p
    by_cases h : v = a <;> simp [lookup_cons, h, ih]

theorem pathLen_zero {α : Type} {links : List (α × α)} {u v : α}
    (h : PathLen links u v 0) : u = v := by
  cases h; rfl

theorem rootDist_zero {α : Type} {links : List (α × α)} {roots : List α}
    {v : α} : rootDist links roots v 0 ↔ v ∈ roots := by
  constructor
  · rintro ⟨r, hr, hp⟩
    exact pathLen_zero hp ▸ hr
  · intro hv
    exact ⟨v, hv, .refl v⟩

theorem rootDist_succ {α : Type} {links : List (α × α)} {roots : List α}
    {v : α} {n : Nat} :
    rootDist links roots v (n + 1) ↔
      ∃ u, rootDist links roots u n ∧ Adj links u v := by
  constructor
  · rintro ⟨r, hr, hp⟩
    cases hp with
    | tail hp' ha => exact ⟨_, ⟨r, hr, hp'⟩, ha⟩
  · rintro ⟨u, ⟨r, hr, hp⟩, ha⟩
    exact ⟨r, hr, .tail hp ha⟩

theorem minDist_exists {α : Type} {links : List (α × α)} {roots : List α}
    {v : α} :
    ∀ n, rootDist links roots v n → ∃ d, IsMinRootDist links roots v d := by
  intro n
  induction n using Nat.strong_induction_on with
  | _ n ih =>
    intro h
    by_cases hex : ∃ e, e < n ∧ rootDist links roots v e
    · obtain ⟨e, he, hre⟩ := hex
      exact ih e he hre
    · exact ⟨n, h, fun e he hre => hex ⟨e, he, hre⟩⟩

theorem minDist_unique {α : Type} {links : List (α × α)} {roots : List α}
    {v : α} {d d' : Nat} (h1 : IsMinRootDist links roots v d)
    (h2 : IsMinRootDist links roots v d') : d = d' := by
  rcases Nat.lt_trichotomy d d' with h | h | h
  · exact absurd h1.1 (h2.2 d h)
  · exact h
  · exact absurd h2.1 (h1.2 d' h)

theorem minDist_succ_src {α : Type} {links : List (α × α)} {roots : List α}
    {v : α} {d : Nat} (h : IsMinRootDist links roots v (d + 1)) :
    ∃ u, IsMinRootDist links roots u d ∧ Adj links u v := by
  obtain ⟨u, hu, ha⟩ := rootDist_succ.mp h.1
  obtain ⟨du, hmin⟩ := minDist_exists _ hu
  have hdu_le : du ≤ d := by
    by_contra hlt
    exact hmin.2 d (Nat.lt_of_not_le hlt) hu
  have hdu_eq : du = d := by
    rcases Nat.lt_or_ge du d with hlt | hge
    · exfalso
      exact h.2 (du + 1) (Nat.succ_lt_succ hlt) (rootDist_succ.mpr ⟨u, hmin.1, ha⟩)
    · exact Nat.le_antisymm hdu_le hge
  exact ⟨u, hdu_eq ▸ hmin, ha⟩

theorem minDist_succ_bound {α : Type} {links : List (α × α)} {roots : List α}
    {u v : α} {k : Nat} (h : IsMinRootDist links roots u k)
    (ha : Adj links u v) : ∃ d, d ≤ k + 1 ∧ IsMinRootDist links roots v d := by
  have hrd : rootDist links roots v (k + 1) := rootDist_succ.mpr ⟨u, h.1, ha⟩
  obtain ⟨d, hmin⟩ := minDist_exists _ hrd
  refine ⟨d, ?_, hmin⟩
  by_contra hlt
  exact hmin.2 (k + 1) (Nat.lt_of_not_le hlt) hrd

theorem layers_empty_above {α : Type} {links : List (α × α)} {roots : List α}
    {k : Nat} (h : ∀ u, ¬ IsMinRootDist links roots u k) :
    ∀ m u, ¬ IsMinRootDist links roots u (k + m) := by
  intro m
  induction m with
  | zero => exact h
  | succ m ih =>
    intro u hmin
    obtain ⟨u', hmin', _⟩ := minDist_succ_src hmin
    exact ih u' hmin'

theorem nbrList_sub {α : Type} [DecidableEq α] {nodeIds : List α}
    {links : List (α × α)}
    (hend : ∀ e ∈ links, e.1 ∈ nodeIds ∧ e.2 ∈ nodeIds) :
    ∀ v w, w ∈ nbrList links v → w ∈ nodeIds := by
  intro v w hw
  rcases mem_nbrList.mp hw with h | h
  · exact (hend _ h).2
  · exact (hend _ h).1

theorem foldl_insertDepth_spec (d : Nat) :
    ∀ (l : List String) (depths : List (String × Nat)) (next : List String),
      ∃ new : List String,
        l.foldl (insertDepth d) (depths, next) =
          (depths ++ new.map fun x => (x, d), next ++ new) ∧
        new.Nodup ∧
        (∀ x ∈ new, x ∈ l ∧ depths.lookup x = none) ∧
        (∀ x ∈ l, (depths.lookup x).isSome ∨ x ∈ new) := by
  intro l
  induction l with
  | nil => intro depths next; exact ⟨[], by simp⟩
  | cons x xs ih =>
    intro depths next
    rw [List.foldl_cons]
    by_cases hx : (depths.lookup x).isSome
    · have hstep : insertDepth d (depths, next) x = (depths, next) := by
        simp [insertDepth, hx]
      rw [hstep]
      obtain ⟨new, h1, h2, h3, h4⟩ := ih depths next
      refine ⟨new, h1, h2,
        fun y hy => ⟨List.mem_cons_of_mem _ (h3 y hy).1, (h3 y hy).2⟩,
        fun y hy => ?_⟩
      rcases List.mem_cons.mp hy with rfl | hy
      · exact Or.inl hx
      · exact h4 y hy
    · have hxn : depths.lookup x = none := Option.not_isSome_iff_eq_none.mp hx
      have hstep : insertDepth d (depths, next) x =
          (depths ++ [(x, d)], next ++ [x]) := by
        simp [insertDepth, hx]
      rw [hstep]
      obtain ⟨new, h1, h2, h3, h4⟩ := ih (depths ++ [(x, d)]) (next ++ [x])
      have hsingle : ∀ y, List.lookup y [(x, d)] =
          if y = x then some d else none := by
        intro y; rw [lookup_cons]; simp
      have hlookup : ∀ y, (depths ++ [(x, d)]).lookup y =
          (depths.lookup y).or (if y = x then some d else none) := by
        intro y; rw [List.lookup_append, hsingle]
      refine ⟨x :: new, ?_, ?_, ?_, ?_⟩
      · rw [h1]
        simp [List.append_assoc]
      · refine List.nodup_cons.mpr ⟨fun hc => ?_, h2⟩
        have hnone := (h3 x hc).2
        rw [hlookup x] at hnone
        simp at hnone
      · intro y hy
        rcases List.mem_cons.mp hy with rfl | hy
        · exact ⟨List.mem_cons_self _ _, hxn⟩
        · have h3y := h3 y hy
          refine ⟨List.mem_cons_of_mem _ h3y.1, ?_⟩
          have hnone := h3y.2
          rw [hlookup y] at hnone
          cases hdl : depths.lookup y with
          | none => rfl
          | some b => rw [hdl] at hnone; simp [Option.or] at hnone
      · intro y hy
        rcases List.mem_cons.mp hy with rfl | hy
        · exact Or.inr (List.mem_cons_self _ _)
        · rcases h4 y hy with hs | hn
          · rw [hlookup y] at hs
            cases hdl : depths.lookup y with
            | some b => exact Or.inl (by simp [hdl])
            | none =>
              rw [hdl] at hs
              simp only [Option.none_or] at hs
              by_cases hyx : y = x
              · exact Or.inr (hyx ▸ List.mem_cons_self _ _)
              · simp [hyx] at hs
          · exact Or.inr (List.mem_cons_of_mem _ hn)

theorem processFrontier_eq (nbr : String → List String) (k : Nat) :
    ∀ (frontier : List String) (depths : List (String × Nat))
      (next : List String),
      (∀ id ∈ frontier, depths.lookup id = some k) →
      frontier.foldl (fun acc id =>
          (nbr id).foldl (insertDepth ((acc.1.lookup id).getD 0 + 1)) acc)
        (depths, next) =
      (frontier.flatMap nbr).foldl (insertDepth (k + 1)) (depths, next) := by
  intro frontier
  induction frontier with
  | nil => intro depths next _; rfl
  | cons id rest ih =>
    intro depths next hfr
    have hid : depths.lookup id = some k := hfr id (List.mem_cons_self _ _)
    rw [List.foldl_cons, List.flatMap_cons, List.foldl_append]
    have hd : (((depths, next) : List (String × Nat) × List String).1.lookup
        id).getD 0 + 1 = k + 1 := by
      simp [hid]
    rw [hd]
    obtain ⟨new, h1, _, _, _⟩ :=
      foldl_insertDepth_spec (k + 1) (nbr id) depths next
    rw [h1]
    apply ih
    intro id' hid'
    rw [List.lookup_append, hfr id' (List.mem_cons_of_mem _ hid')]
    rfl

theorem depth_round_step (nodeIds : List String)
    (links : List (String × String)) (roots : List String)
    (hend : ∀ e ∈ links, e.1 ∈ nodeIds ∧ e.2 ∈ nodeIds)
    (k : Nat) (depths : List (String × Nat)) (frontier : List String)
    (depths' : List (String × Nat)) (new : List String)
    (hInv1 : ∀ v, v ∈ frontier ↔ IsMinRootDist links roots v k)
    (hInv3 : ∀ v d, depths.lookup v = some d ↔
      d ≤ k ∧ IsMinRootDist links roots v d)
    (hInv4 : (depths.map Prod.fst).Nodup)
    (hInv5 : ∀ q ∈ depths, q.1 ∈ roots ∨ q.1 ∈ nodeIds)
    (hp : processFrontier (nbrList links) depths frontier = (depths', new)) :
    (∀ v, v ∈ new ↔ IsMinRootDist links roots v (k + 1)) ∧
    (∀ v d, depths'.lookup v = some d ↔
      d ≤ k + 1 ∧ IsMinRootDist links roots v d) ∧
    (depths'.map Prod.fst).Nodup ∧
    (∀ q ∈ depths', q.1 ∈ roots ∨ q.1 ∈ nodeIds) ∧
    depths' = depths ++ new.map fun x => (x, k + 1) := by
  have hfr : ∀ id ∈ frontier, depths.lookup id = some k := fun id hid =>
    (hInv3 id k).mpr ⟨le_refl k, (hInv1 id).mp hid⟩
  have heq := processFrontier_eq (nbrList links) k frontier depths [] hfr
  obtain ⟨new₀, h1, h2, h3, h4⟩ := foldl_insertDepth_spec (k + 1)
    (frontier.flatMap (nbrList links)) depths []
  unfold processFrontier at hp
  rw [heq, h1] at hp
  obtain ⟨hpd, hpn⟩ := Prod.mk.injEq .. ▸ hp
  simp only [List.nil_append] at hpn
  subst hpn
  subst hpd
  have hmem_new : ∀ v, v ∈ new₀ ↔ IsMinRootDist links roots v (k + 1) := by
    intro v
    constructor
    · intro hv
      obtain ⟨hvflat, hvnone⟩ := h3 v hv
      obtain ⟨id, hidfr, hvnbr⟩ := List.mem_flatMap.mp hvflat
      have hmin_id : IsMinRootDist links roots id k := (hInv1 id).mp hidfr
      obtain ⟨d, hd_le, hmin⟩ :=
        minDist_succ_bound hmin_id (mem_nbrList.mp hvnbr)
      have : ¬ d ≤ k := fun hdk => by
        rw [(hInv3 v d).mpr ⟨hdk, hmin⟩] at hvnone; cases hvnone
      have : d = k + 1 := Nat.le_antisymm hd_le (Nat.lt_of_not_le this)
      exact this ▸ hmin
    · intro hmin
      obtain ⟨u, hminu, ha⟩ := minDist_succ_src hmin
      have hvflat : v ∈ frontier.flatMap (nbrList links) :=
        List.mem_flatMap.mpr ⟨u, (hInv1 u).mpr hminu, mem_nbrList.mpr ha⟩
      rcases h4 v hvflat with hs | hn
      · exfalso
        obtain ⟨d, hd⟩ := Option.isSome_iff_exists.mp hs
        obtain ⟨hdk, hmind⟩ := (hInv3 v d).mp hd
        have := minDist_unique hmin hmind
        omega
      · exact hn
  refine ⟨hmem_new, ?_, ?_, ?_, rfl⟩
  · intro v d
    rw [List.lookup_append, lookup_map_const]
    cases hdl : depths.lookup v with
    | some d₀ =>
      obtain ⟨hd₀k, hmind₀⟩ := (hInv3 v d₀).mp hdl
      simp only [Option.or, Option.some.injEq]
      constructor
      · rintro rfl
        exact ⟨Nat.le_succ_of_le hd₀k, hmind₀⟩
      · rintro ⟨hdk, hmind⟩
        exact (minDist_unique hmind hmind₀).symm ▸ rfl
    | none =>
      simp only [Option.none_or]
      by_cases hvnew : v ∈ new₀
      · simp only [hvnew, if_true, Option.some.injEq]
        constructor
        · rintro rfl
          exact ⟨le_refl _, (hmem_new v).mp hvnew⟩
        · rintro ⟨hdk, hmind⟩
          have hmin' := (hmem_new v).mp hvnew
          exact (minDist_unique hmind hmin').symm
      · simp only [hvnew, if_false]
        constructor
        · intro hc; cases hc
        · rintro ⟨hdk, hmind⟩
          exfalso
          rcases Nat.lt_or_ge d (k + 1) with hlt | hge
          · have : d ≤ k := Nat.lt_succ_iff.mp hlt
            rw [(hInv3 v d).mpr ⟨this, hmind⟩] at hdl; cases hdl
          · have : d = k + 1 := Nat.le_antisymm hdk hge
            exact hvnew ((hmem_new v).mpr (this ▸ hmind))
  · rw [List.map_append]
    have hmm : (new₀.map fun x => (x, k + 1)).map Prod.fst = new₀ := by
      rw [List.map_map]; exact List.map_id new₀
    rw [hmm]
    refine hInv4.append h2 ?_
    intro x hx hx'
    have := (h3 x hx').2
    rw [← lookup_isSome_iff] at hx
    rw [this] at hx
    cases hx
  · intro q hq
    rcases List.mem_append.mp hq with hq | hq
    · exact hInv5 q hq
    · obtain ⟨x, hx, rfl⟩ := List.mem_map.mp hq
      have hxflat := (h3 x hx).1
      obtain ⟨id, _, hxnbr⟩ := List.mem_flatMap.mp hxflat
      exact Or.inr (nbrList_sub hend id x hxnbr)

theorem bfsDepthLoop_nil (nbr : String → List String) (fuel : Nat)
    (depths : List (String × Nat)) :
    bfsDepthLoop nbr fuel depths [] = depths := by
  cases fuel <;> rfl

theorem depth_finish (links : List (String × String)) (roots : List String)
    (k : Nat) (depths : List (String × Nat))
    (hempty : ∀ v, ¬ IsMinRootDist links roots v k)
    (hInv3 : ∀ v d, depths.lookup v = some d ↔
      d ≤ k ∧ IsMinRootDist links roots v d) :
    (∀ v d, depths.lookup v = some d ↔ IsMinRootDist links roots v d) ∧
    (∀ v, depths.lookup v = none ↔ ∀ n, ¬ rootDist links roots v n) := by
  have habove : ∀ d, k ≤ d → ∀ u, ¬ IsMinRootDist links roots u d := by
    intro d hd u
    have := layers_empty_above hempty (d - k) u
    rwa [Nat.add_sub_cancel' hd] at this
  constructor
  · intro v d
    constructor
    · intro h; exact ((hInv3 v d).mp h).2
    · intro hmind
      rcases Nat.lt_or_ge d k with hlt | hge
      · exact (hInv3 v d).mpr ⟨Nat.le_of_lt hlt, hmind⟩
      · exact absurd hmind (habove d hge v)
  · intro v
    constructor
    · intro hnone n hrd
      obtain ⟨d, hmind⟩ := minDist_exists n hrd
      rcases Nat.lt_or_ge d k with hlt | hge
      · rw [(hInv3 v d).mpr ⟨Nat.le_of_lt hlt, hmind⟩] at hnone; cases hnone
      · exact habove d hge v hmind
    · intro hno
      cases hdl : depths.lookup v with
      | none => rfl
      | some d =>
        exact absurd ((hInv3 v d).mp hdl).2.1 (hno d)

theorem depth_length_bound (roots nodeIds : List String)
    (depths : List (String × Nat))
    (hInv4 : (depths.map Prod.fst).Nodup)
    (hInv5 : ∀ q ∈ depths, q.1 ∈ roots ∨ q.1 ∈ nodeIds) :
    depths.length ≤ (roots ++ nodeIds).length := by
  have h1 : depths.length = (depths.map Prod.fst).length :=
    (List.length_map _ _).symm
  have h2 : (depths.map Prod.fst).length =
      (depths.map Prod.fst).toFinset.card :=
    (List.toFinset_card_of_nodup hInv4).symm
  have h3 : (depths.map Prod.fst).toFinset ⊆ (roots ++ nodeIds).toFinset := by
    intro x hx
    rw [List.mem_toFinset] at hx
    obtain ⟨q, hq, rfl⟩ := List.mem_map.mp hx
    rw [List.mem_toFinset, List.mem_append]
    exact hInv5 q hq
  calc depths.length = (depths.map Prod.fst).toFinset.card := by rw [h1, h2]
    _ ≤ (roots ++ nodeIds).toFinset.card := Finset.card_le_card h3
    _ ≤ (roots ++ nodeIds).length := List.toFinset_card_le _

theorem bfsDepthLoop_spec (nodeIds : List String)
    (links : List (String × String)) (roots : List String)
    (hend : ∀ e ∈ links, e.1 ∈ nodeIds ∧ e.2 ∈ nodeIds) :
    ∀ (fuel k : Nat) (depths : List (String × Nat)) (frontier : List String),
      (∀ v, v ∈ frontier ↔ IsMinRootDist links roots v k) →
      (∀ v d, depths.lookup v = some d ↔
        d ≤ k ∧ IsMinRootDist links roots v d) →
      (depths.map Prod.fst).Nodup →
      (∀ q ∈ depths, q.1 ∈ roots ∨ q.1 ∈ nodeIds) →
      (roots ++ nodeIds).length + 1 ≤ fuel + depths.length →
      (∀ v d, (bfsDepthLoop (nbrList links) fuel depths frontier).lookup v =
          some d ↔ IsMinRootDist links roots v d) ∧
      (∀ v, (bfsDepthLoop (nbrList links) fuel depths frontier).lookup v =
          none ↔ ∀ n, ¬ rootDist links roots v n) := by
  intro fuel
  induction fuel with
  | zero =>
    intro k depths frontier _ _ hInv4 hInv5 hcount
    exfalso
    have := depth_length_bound roots nodeIds depths hInv4 hInv5
    omega
  | succ f ih =>
    intro k depths frontier hInv1 hInv3 hInv4 hInv5 hcount
    cases frontier with
    | nil =>
      have hempty : ∀ v, ¬ IsMinRootDist links roots v k := fun v h => by
        have := (hInv1 v).mpr h
        simp at this
      exact depth_finish links roots k depths hempty hInv3
    | cons id rest =>
      rcases hpp : processFrontier (nbrList links) depths (id :: rest) with
        ⟨depths', new⟩
      obtain ⟨hInv1', hInv3', hInv4', hInv5', heq⟩ :=
        depth_round_step nodeIds links roots hend k depths (id :: rest)
          depths' new hInv1 hInv3 hInv4 hInv5 hpp
      have hloop : bfsDepthLoop (nbrList links) (f + 1) depths (id :: rest) =
          bfsDepthLoop (nbrList links) f depths' new := by
        show bfsDepthLoop (nbrList links) f
          (processFrontier (nbrList links) depths (id :: rest)).1
          (processFrontier (nbrList links) depths (id :: rest)).2 = _
        rw [hpp]
      rw [hloop]
      by_cases hnewnil : new = []
      · subst hnewnil
        rw [bfsDepthLoop_nil]
        have hempty : ∀ v, ¬ IsMinRootDist links roots v (k + 1) := fun v h => by
          have := (hInv1' v).mpr h
          simp at this
        exact depth_finish links roots (k + 1) depths' hempty hInv3'
      · apply ih (k + 1) depths' new hInv1' hInv3' hInv4' hInv5'
        have hlen : depths'.length = depths.length + new.length := by
          rw [heq, List.length_append, List.length_map]
        have hpos : 1 ≤ new.length := by
          have := List.length_pos.mpr hnewnil
          omega
        omega

theorem initDepths_foldl_lookup :
    ∀ (roots : List String) (acc : List (String × Nat)) (v : String),
      (roots.foldl (fun acc id =>
          if (acc.lookup id).isSome then acc else acc ++ [(id, 0)]) acc).lookup v =
        (acc.lookup v).or (if v ∈ roots then some 0 else none) := by
  intro roots
  induction roots with
  | nil => intro acc v; simp
  | cons r rest ih =>
    intro acc v
    rw [List.foldl_cons]
    by_cases hs : (acc.lookup r).isSome
    · rw [if_pos hs, ih]
      by_cases hvr : v = r
      · subst hvr
        obtain ⟨b, hb⟩ := Option.isSome_iff_exists.mp hs
        simp [hb, Option.or]
      · simp [List.mem_cons, hvr]
    · rw [if_neg hs, ih]
      have hsingle : List.lookup v [(r, (0 : Nat))] =
          if v = r then some 0 else none := by
        rw [lookup_cons]; simp
      rw [List.lookup_append, hsingle, Option.or_assoc]
      congr 1
      by_cases hvr : v = r
      · subst hvr
        have : acc.lookup v = none := Option.not_isSome_iff_eq_none.mp hs
        simp [Option.or]
      · simp [List.mem_cons, hvr]

theorem initDepths_lookup (roots : List String) (v : String) :
    (initDepths roots).lookup v = if v ∈ roots then some 0 else none := by
  unfold initDepths
  rw [initDepths_foldl_lookup]
  rfl

theorem initDepths_foldl_nodup :
    ∀ (roots : List String) (acc : List (String × Nat)),
      (acc.map Prod.fst).Nodup →
      ((roots.foldl (fun acc id =>
          if (acc.lookup id).isSome then acc else acc ++ [(id, 0)]) acc).map
        Prod.fst).Nodup := by
  intro roots
  induction roots with
  | nil => intro acc h; exact h
  | cons r rest ih =>
    intro acc h
    rw [List.foldl_cons]
    by_cases hs : (acc.lookup r).isSome
    · rw [if_pos hs]; exact ih acc h
    · rw [if_neg hs]
      refine ih _ ?_
      rw [List.map_append]
      refine h.append (List.nodup_singleton r) ?_
      intro x hx hx'
      simp only [List.map_cons, List.map_nil, List.mem_singleton] at hx'
      subst hx'
      have : (acc.lookup x).isSome := (lookup_isSome_iff acc x).mpr hx
      exact hs this

theorem initDepths_foldl_mem :
    ∀ (roots : List String) (acc : List (String × Nat)) (q : String × Nat),
      q ∈ roots.foldl (fun acc id =>
          if (acc.lookup id).isSome then acc else acc ++ [(id, 0)]) acc →
      q ∈ acc ∨ q.1 ∈ roots := by
  intro roots
  induction roots with
  | nil => intro acc q h; exact Or.inl h
  | cons r rest ih =>
    intro acc q h
    rw [List.foldl_cons] at h
    by_cases hs : (acc.lookup r).isSome
    · rw [if_pos hs] at h
      rcases ih acc q h with h' | h'
      · exact Or.inl h'
      · exact Or.inr (List.mem_cons_of_mem _ h')
    · rw [if_neg hs] at h
      rcases ih _ q h with h' | h'
      · rcases List.mem_append.mp h' with h'' | h''
        · exact Or.inl h''
        · rw [List.mem_singleton] at h''
          subst h''
          exact Or.inr (List.mem_cons_self _ _)
      · exact Or.inr (List.mem_cons_of_mem _ h')

/-- C6: `getDepthsFromEntrances` labels exactly the nodes reachable from the
root set (the entrance ids, or a single fallback node when that set is empty)
with their minimum edge-count distance to any root; unreachable nodes are
absent from the map; every root is labelled 0.  Hypotheses: link endpoints and
roots lie in the node set (otherwise the JS code dereferences a missing
adjacency entry). -/
theorem depths_spec (nodeIds : List String) (links : List (String × String))
    (entranceIds : List String) (roots : List String)
    (hend : ∀ e ∈ links, e.1 ∈ nodeIds ∧ e.2 ∈ nodeIds)
    (hroots : roots =
      if 0 < entranceIds.length then entranceIds else nodeIds.take 1)
    (_hsub : ∀ r ∈ roots, r ∈ nodeIds) :
    (∀ v d, (getDepthsFromEntrances nodeIds links entranceIds).lookup v =
        some d ↔ IsMinRootDist links roots v d) ∧
    (∀ v, (getDepthsFromEntrances nodeIds links entranceIds).lookup v =
        none ↔ ∀ n, ¬ rootDist links roots v n) ∧
    (∀ r ∈ roots, (getDepthsFromEntrances nodeIds links entranceIds).lookup r =
        some 0) := by
  have hmin0 : ∀ v, v ∈ roots ↔ IsMinRootDist links roots v 0 := by
    intro v
    constructor
    · intro hv
      exact ⟨rootDist_zero.mpr hv, fun e he => absurd he (Nat.not_lt_zero e)⟩
    · intro h
      exact rootDist_zero.mp h.1
  have hInv3 : ∀ v d, (initDepths roots).lookup v = some d ↔
      d ≤ 0 ∧ IsMinRootDist links roots v d := by
    intro v d
    rw [initDepths_lookup]
    by_cases hv : v ∈ roots
    · simp only [hv, if_true, Option.some.injEq]
      constructor
      · rintro rfl
        exact ⟨le_refl 0, (hmin0 v).mp hv⟩
      · rintro ⟨hd0, hmind⟩
        omega
    · simp only [hv, if_false]
      constructor
      · intro hc; cases hc
      · rintro ⟨hd0, hmind⟩
        interval_cases d
        exact absurd ((hmin0 v).mpr hmind) hv
  have hInv4 : ((initDepths roots).map Prod.fst).Nodup :=
    initDepths_foldl_nodup roots [] (by simp)
  have hInv5 : ∀ q ∈ initDepths roots, q.1 ∈ roots ∨ q.1 ∈ nodeIds := by
    intro q hq
    rcases initDepths_foldl_mem roots [] q hq with h | h
    · cases h
    · exact Or.inl h
  have hmain := bfsDepthLoop_spec nodeIds links roots hend
    (nodeIds.length + roots.length + 2) 0 (initDepths roots) roots
    hmin0 hInv3 hInv4 hInv5
    (by rw [List.length_append]; omega)
  have hunfold : getDepthsFromEntrances nodeIds links entranceIds =
      bfsDepthLoop (nbrList links) (nodeIds.length + roots.length + 2)
        (initDepths roots) roots := by
    unfold getDepthsFromEntrances
    rw [← hroots]
  rw [hunfold]
  refine ⟨hmain.1, hmain.2, ?_⟩
  intro r hr
  exact (hmain.1 r 0).mpr ((hmin0 r).mp hr)

/-- Witness for `depths_spec` on the path graph a - b - c with entrance a. -/
theorem depths_spec_witness :
    ((∀ e ∈ [("a", "b"), ("b", "c")],
        e.1 ∈ ["a", "b", "c"] ∧ e.2 ∈ ["a", "b", "c"]) ∧
      (["a"] : List String) =
        (if 0 < (["a"] : List String).length then ["a"]
         else ["a", "b", "c"].take 1) ∧
      ∀ r ∈ (["a"] : List String), r ∈ ["a", "b", "c"]) ∧
    ((∀ v d, (getDepthsFromEntrances ["a", "b", "c"] [("a", "b"), ("b", "c")]
        ["a"]).lookup v = some d ↔
        IsMinRootDist [("a", "b"), ("b", "c")] ["a"] v d) ∧
      (∀ v, (getDepthsFromEntrances ["a", "b", "c"] [("a", "b"), ("b", "c")]
        ["a"]).lookup v = none ↔
        ∀ n, ¬ rootDist [("a", "b"), ("b", "c")] ["a"] v n) ∧
      (∀ r ∈ (["a"] : List String),
        (getDepthsFromEntrances ["a", "b", "c"] [("a", "b"), ("b", "c")]
          ["a"]).lookup r = some 0)) :=
  ⟨⟨by decide, by decide, by decide⟩,
    depths_spec ["a", "b", "c"] [("a", "b"), ("b", "c")] ["a"] ["a"]
      (by decide) (by decide) (by decide)⟩

/-- The six node positions of a layout. -/
def sixIds : List Nat := [0, 1, 2, 3, 4, 5]

/-- A topology uses all six positions 0..5. -/
def usesAllSix (edges : List (Nat × Nat)) : Prop :=
  ∀ v, v < 6 → ∃ e ∈ edges, e.1 = v ∨ e.2 = v

instance (edges : List (Nat × Nat)) : Decidable (usesAllSix edges) :=
  decidable_of_iff (∀ v, v < 6 → ∃ e ∈ edges, e.1 = v ∨ e.2 = v) Iff.rfl

/-- A topology connects all six positions. -/
def ConnectedSix (edges : List (Nat × Nat)) : Prop :=
  ∀ i, i < 6 → ∀ j, j < 6 → Reachable edges i j

/-- Unordered normalisation of an index pair. -/
def normPair (e : Nat × Nat) : Nat × Nat :=
  if e.1 ≤ e.2 then e else (e.2, e.1)

theorem connectedSix_of_bfs (edges : List (Nat × Nat))
    (hend : ∀ e ∈ edges, e.1 ∈ sixIds ∧ e.2 ∈ sixIds)
    (hbfs : ∀ j ∈ sixIds, j ∈ bfs sixIds edges 0) :
    ConnectedSix edges := by
  have hmem : ∀ j, j < 6 → j ∈ sixIds := by
    intro j hj
    simp only [sixIds, List.mem_cons, List.not_mem_nil, or_false]
    omega
  have hre : ∀ j, j < 6 → Reachable edges 0 j := fun j hj =>
    (mem_bfs_iff sixIds edges 0 j hend).mp (hbfs j (hmem j hj))
  intro i hi j hj
  exact reachable_trans (reachable_symm (hre i hi)) (hre j hj)

theorem layouts_connected : ∀ L ∈ LAYOUTS, ConnectedSix L := by
  intro L hL
  simp only [LAYOUTS, List.mem_cons, List.not_mem_nil, or_false] at hL
  rcases hL with rfl | rfl | rfl | rfl | rfl | rfl | rfl | rfl | rfl | rfl <;>
    exact connectedSix_of_bfs _ (by decide) (by decide)

theorem layouts_cycle : ∀ L ∈ LAYOUTS, ∃ c, IsCycle L c ∧ ∀ v ∈ c, v < 6 := by
  intro L hL
  simp only [LAYOUTS, List.mem_cons, List.not_mem_nil, or_false] at hL
  rcases hL with rfl | rfl | rfl | rfl | rfl | rfl | rfl | rfl | rfl | rfl
  · exact ⟨[0, 1, 2, 0], by decide, by decide⟩
  · exact ⟨[0, 1, 2, 0], by decide, by decide⟩
  · exact ⟨[0, 1, 2, 0], by decide, by decide⟩
  · exact ⟨[0, 1, 2, 0], by decide, by decide⟩
  · exact ⟨[0, 1, 2, 3, 0], by decide, by decide⟩
  · exact ⟨[0, 1, 2, 3, 0], by decide, by decide⟩
  · exact ⟨[0, 1, 2, 3, 0], by decide, by decide⟩
  · exact ⟨[0, 1, 2, 3, 4, 0], by decide, by decide⟩
  · exact ⟨[0, 1, 2, 3, 0], by decide, by decide⟩
  · exact ⟨[0, 1, 2, 0], by decide, by decide⟩

/-- C7: every catalog layout has six edges over positions 0..5, uses all six
positions, is connected, contains a cycle, and has no duplicate unordered
index pair. -/
theorem layouts_catalog_spec :
    ∀ L ∈ LAYOUTS, L.length = 6 ∧ usesAllSix L ∧ ConnectedSix L ∧
      HasCycle L ∧ (L.map normPair).Nodup := by
  intro L hL
  have hdec : L.length = 6 ∧ usesAllSix L ∧ (L.map normPair).Nodup := by
    have hL' := hL
    simp only [LAYOUTS, List.mem_cons, List.not_mem_nil, or_false] at hL'
    rcases hL' with rfl | rfl | rfl | rfl | rfl | rfl | rfl | rfl | rfl | rfl <;>
      exact ⟨by decide, by decide, by decide⟩
  obtain ⟨c, hc, _⟩ := layouts_cycle L hL
  exact ⟨hdec.1, hdec.2.1, layouts_connected L hL, ⟨c, hc⟩, hdec.2.2⟩

/-- Witness for `layouts_catalog_spec` at the first catalog entry. -/
theorem layouts_catalog_spec_witness :
    ([(0, 1), (1, 2), (2, 0), (0, 3), (1, 4), (2, 5)] ∈ LAYOUTS) ∧
    (([(0, 1), (1, 2), (2, 0), (0, 3), (1, 4), (2, 5)] :
        List (Nat × Nat)).length = 6 ∧
      usesAllSix [(0, 1), (1, 2), (2, 0), (0, 3), (1, 4), (2, 5)] ∧
      ConnectedSix [(0, 1), (1, 2), (2, 0), (0, 3), (1, 4), (2, 5)] ∧
      HasCycle [(0, 1), (1, 2), (2, 0), (0, 3), (1, 4), (2, 5)] ∧
      (([(0, 1), (1, 2), (2, 0), (0, 3), (1, 4), (2, 5)] :
        List (Nat × Nat)).map normPair).Nodup) :=
  ⟨by decide, layouts_catalog_spec _ (by decide)⟩

theorem count_set_add {α : Type} [DecidableEq α] (l : List α) (n : Nat) (b : α)
    (h : n < l.length) (x : α) :
    (l.set n b).count x + (if l.get ⟨n, h⟩ = x then 1 else 0) =
      l.count x + (if b = x then 1 else 0) := by
  have hset : l.set n b = l.take n ++ b :: l.drop (n + 1) := by
    rw [List.set_eq_take_append_cons_drop, if_pos h]
  have hl : l.count x =
      (l.take n).count x + (if l.get ⟨n, h⟩ = x then 1 else 0) +
        (l.drop (n + 1)).count x := by
    conv_lhs => rw [← List.take_append_drop n l, List.drop_eq_getElem_cons h]
    rw [List.count_append, List.count_cons, List.get_eq_getElem]
    simp only [beq_iff_eq]
    by_cases hx : l[n] = x <;> (simp [hx]; try omega)
  have hs : (l.set n b).count x =
      (l.take n).count x + (if b = x then 1 else 0) +
        (l.drop (n + 1)).count x := by
    rw [hset, List.count_append, List.count_cons]
    simp only [beq_iff_eq]
    by_cases hx : b = x <;> (simp [hx]; try omega)
  rw [hl, hs]
  omega

theorem listSwap_length {α : Type} (l : List α) (i j : Nat) :
    (listSwap l i j).length = l.length := by
  unfold listSwap
  cases l.get? i <;> cases l.get? j <;> simp

theorem listSwap_perm {α : Type} [DecidableEq α] (l : List α) (i j : Nat) :
    (listSwap l i j).Perm l := by
  unfold listSwap
  cases hgi : l.get? i with
  | none => exact List.Perm.refl l
  | some a =>
    cases hgj : l.get? j with
    | none => exact List.Perm.refl l
    | some b =>
      obtain ⟨hi, hga⟩ := List.get?_eq_some.mp hgi
      obtain ⟨hj, hgb⟩ := List.get?_eq_some.mp hgj
      show ((l.set i b).set j a).Perm l
      rw [List.perm_iff_count]
      intro x
      have hj' : j < (l.set i b).length := by rw [List.length_set]; exact hj
      have h1 := count_set_add (l.set i b) j a hj' x
      have h2 := count_set_add l i b hi x
      have hget : (l.set i b).get ⟨j, hj'⟩ = if i = j then b else l.get ⟨j, hj⟩ := by
        by_cases hij : i = j
        · subst hij
          simp [List.get_eq_getElem, List.getElem_set_self]
        · simp [List.get_eq_getElem, List.getElem_set_ne hij, hij]
      by_cases hij : i = j
      · subst hij
        have hab : a = b := by rw [← hga, ← hgb]
        subst hab
        rw [hget] at h1
        simp only [if_pos rfl] at h1
        rw [hga] at h2
        split_ifs at h1 h2 <;> omega
      · rw [hget, if_neg hij, hgb] at h1
        rw [hga] at h2
        split_ifs at h1 h2 <;> omega

theorem foldl_swap_perm {α : Type} [DecidableEq α] :
    ∀ (ps : List (Nat × Nat)) (acc : List α),
      (ps.foldl (fun out p => listSwap out p.1 p.2) acc).Perm acc := by
  intro ps
  induction ps with
  | nil => intro acc; exact List.Perm.refl acc
  | cons p ps ih =>
    intro acc
    rw [List.foldl_cons]
    exact (ih (listSwap acc p.1 p.2)).trans (listSwap_perm acc p.1 p.2)

theorem shuffle_perm {α : Type} [DecidableEq α] (arr : List α) (js : List Nat) :
    (shuffle arr js).Perm arr :=
  foldl_swap_perm _ arr

theorem shuffle_length {α : Type} [DecidableEq α] (arr : List α)
    (js : List Nat) : (shuffle arr js).length = arr.length :=
  (shuffle_perm arr js).length_eq

theorem upgradeTypes_length (l : List RoomType) (oneSpecial : Bool) :
    (upgradeTypes l oneSpecial).length = l.length := by
  unfold upgradeTypes
  rw [List.length_map, List.enum_length]

theorem upgradeTypes_false (l : List RoomType) :
    upgradeTypes l false = l := by
  unfold upgradeTypes
  have : ∀ p ∈ l.enum,
      (if p.2 = RoomType.empty ∧ false = true ∧
          p.1 = l.indexOf RoomType.empty
        then RoomType.special else p.2) = Prod.snd p := by
    intro p _
    simp
  rw [List.map_congr_left this, List.enum_map_snd]

theorem upgradeTypes_true (l : List RoomType) (h : RoomType.empty ∈ l) :
    upgradeTypes l true = l.set (l.indexOf RoomType.empty) RoomType.special := by
  have hidx : l.indexOf RoomType.empty < l.length :=
    List.indexOf_lt_length.mpr h
  apply List.ext_get
  · rw [upgradeTypes_length, List.length_set]
  · intro n h₁ h₂
    have hn : n < l.length := by
      rw [upgradeTypes_length] at h₁; exact h₁
    have hn' : n < l.enum.length := by rw [List.enum_length]; exact hn
    unfold upgradeTypes
    rw [List.get_eq_getElem, List.get_eq_getElem, List.getElem_map,
      List.getElem_enum]
    by_cases hni : n = l.indexOf RoomType.empty
    · subst hni
      have hget : l[l.indexOf RoomType.empty] = RoomType.empty := by
        rw [← List.get_eq_getElem l ⟨_, hidx⟩]
        exact List.indexOf_get hidx
      simp [hget, List.getElem_set_self]
    · have hcond : ¬(l[n] = RoomType.empty ∧ true = true ∧
          n = l.indexOf RoomType.empty) := by
        intro hc
        exact hni hc.2.2
      rw [if_neg hcond, List.getElem_set_ne (fun hc => hni hc.symm)]

theorem adj_map {α β : Type} {r : List (α × α)} {s : List (β × β)}
    (f : α → β) (hmap : ∀ e ∈ r, (f e.1, f e.2) ∈ s) {a b : α}
    (h : Adj r a b) : Adj s (f a) (f b) := by
  rcases h with h | h
  · exact Or.inl (hmap _ h)
  · exact Or.inr (hmap _ h)

theorem pathLen_map {α β : Type} {r : List (α × α)} {s : List (β × β)}
    (f : α → β) (hmap : ∀ e ∈ r, (f e.1, f e.2) ∈ s) {u v : α} {n : Nat}
    (hp : PathLen r u v n) : PathLen s (f u) (f v) n := by
  induction hp with
  | refl => exact .refl _
  | tail _ ha ih => exact .tail ih (adj_map f hmap ha)

theorem cycle_map (edges : List (Nat × Nat)) (pairs : List (String × String))
    (f : Nat → String)
    (hmap : ∀ e ∈ edges, (f e.1, f e.2) ∈ pairs)
    (hinj : ∀ i, i < 6 → ∀ j, j < 6 → f i = f j → i = j)
    (c : List Nat) (hc : IsCycle edges c) (hb : ∀ v ∈ c, v < 6) :
    IsCycle pairs (c.map f) := by
  obtain ⟨hlen, hcl, hch, hnd⟩ := hc
  refine ⟨?_, ?_, ?_, ?_⟩
  · rw [List.length_map]; exact hlen
  · rw [List.head?_map, List.getLast?_map, hcl]
  · rw [List.chain'_map]
    exact hch.imp fun a b hab => adj_map f hmap hab
  · rw [← List.map_dropLast]
    refine hnd.map_on ?_
    intro x hx y hy hxy
    exact hinj x (hb x (List.dropLast_subset c hx))
      y (hb y (List.dropLast_subset c hy)) hxy

theorem buildLinks_some (nodeIds : List String) (rolls : Nat → Nat) :
    ∀ (edges : List (Nat × Nat)) (seen : List String) (k : Nat)
      (ls : List DungeonLink),
      buildLinks nodeIds rolls edges seen k = some ls →
      (ls.map fun l0 => (l0.source, l0.target)) =
        edges.map (fun e => (nodeIds.getD e.1 "", nodeIds.getD e.2 "")) ∧
      ls.length = edges.length := by
  intro edges
  induction edges with
  | nil =>
    intro seen k ls h
    simp only [buildLinks, Option.some.injEq] at h
    subst h
    simp
  | cons e rest ih =>
    intro seen k ls h
    simp only [buildLinks] at h
    split at h
    · cases h
    · rcases Option.map_eq_some'.mp h with ⟨ls', hls', rfl⟩
      obtain ⟨hmap', hlen'⟩ := ih _ _ ls' hls'
      constructor
      · simp only [List.map_cons, hmap']
      · simp only [List.length_cons, hlen']

theorem mkNodes_length (nodeIds : List String) (types : List RoomType)
    (e1 e2 : Nat) : (mkNodes nodeIds types e1 e2).length = nodeIds.length := by
  unfold mkNodes
  rw [List.length_map, List.enum_length]

theorem mkNodes_map_id (nodeIds : List String) (types : List RoomType)
    (e1 e2 : Nat) :
    (mkNodes nodeIds types e1 e2).map (fun n => n.id) = nodeIds := by
  unfold mkNodes
  rw [List.map_map]
  exact (List.map_congr_left fun p _ => rfl).trans (List.enum_map_snd nodeIds)

theorem mkNodes_map_roomType (nodeIds : List String) (types : List RoomType)
    (e1 e2 : Nat) (h : types.length = nodeIds.length) :
    (mkNodes nodeIds types e1 e2).map (fun n => n.roomType) = types := by
  unfold mkNodes
  rw [List.map_map]
  apply List.ext_get
  · rw [List.length_map, List.enum_length, h]
  · intro n h₁ h₂
    have hn : n < nodeIds.length := by
      rw [List.length_map, List.enum_length] at h₁
      exact h₁
    rw [List.get_eq_getElem, List.get_eq_getElem, List.getElem_map,
      List.getElem_enum]
    show types.getD n RoomType.empty = types[n]
    rw [List.getD_eq_getElem types RoomType.empty (by omega)]

theorem mkNodes_entrance (nodeIds : List String) (types : List RoomType)
    (e1 e2 : Nat) (hi : e1 < nodeIds.length) :
    ∃ n ∈ mkNodes nodeIds types e1 e2, n.entrance = true := by
  have hlen : e1 < (mkNodes nodeIds types e1 e2).length := by
    rw [mkNodes_length]; exact hi
  refine ⟨(mkNodes nodeIds types e1 e2).get ⟨e1, hlen⟩,
    List.get_mem _ e1 hlen, ?_⟩
  unfold mkNodes
  rw [List.get_eq_getElem]
  simp only [List.getElem_map, List.getElem_enum]
  simp

theorem layouts_length : ∀ L ∈ LAYOUTS, L.length = 6 := by
  intro L hL
  simp only [LAYOUTS, List.mem_cons, List.not_mem_nil, or_false] at hL
  rcases hL with rfl | rfl | rfl | rfl | rfl | rfl | rfl | rfl | rfl | rfl <;>
    decide

/-- C2: a successfully generated unit has exactly six rooms and six
connections, is connected, contains a cycle, has at least one entrance, and
its room-type multiset is {monster_treasure, monster, treasure} plus either
three empties or two empties and one special.  Hypotheses: the six freshly
minted ids are distinct and the entrance draw is in range, as produced by
`generateId()` and `randomInt(0, 5)`. -/
theorem generate_unit_spec (layoutIndex : Fin LAYOUTS.length)
    (nodeIds : List String) (js : List Nat) (specialRoll e1 e2 : Nat)
    (rolls : Nat → Nat) (g : GraphData)
    (hlen : nodeIds.length = 6) (hnd : nodeIds.Nodup) (he1 : e1 < 6)
    (hg : generateBiteSizedDungeon layoutIndex nodeIds js specialRoll e1 e2
      rolls = some g) :
    g.nodes.length = 6 ∧ g.links.length = 6 ∧
    (∀ u ∈ g.nodes, ∀ v ∈ g.nodes, Reachable (graphPairs g) u.id v.id) ∧
    HasCycle (graphPairs g) ∧
    (∃ n ∈ g.nodes, n.entrance = true) ∧
    ((g.nodes.map fun n => n.roomType).Perm
        [RoomType.monster_treasure, .monster, .treasure, .empty, .empty,
          .empty] ∨
      (g.nodes.map fun n => n.roomType).Perm
        [RoomType.monster_treasure, .monster, .treasure, .special, .empty,
          .empty]) := by
  unfold generateBiteSizedDungeon at hg
  rcases Option.map_eq_some'.mp hg with ⟨links, hbuild, rfl⟩
  obtain ⟨hpairs, hlinklen⟩ := buildLinks_some nodeIds rolls _ _ _ _ hbuild
  have hL : LAYOUTS.get layoutIndex ∈ LAYOUTS := List.get_mem _ _ _
  have hconn := layouts_connected _ hL
  obtain ⟨c, hc, hcb⟩ := layouts_cycle _ hL
  have htypeslen :
      (upgradeTypes (shuffle ROOM_TYPES js) (specialRoll == 0)).length = 6 := by
    rw [upgradeTypes_length, shuffle_length]
    rfl
  have hgp : graphPairs (GraphData.mk (mkNodes nodeIds
        (upgradeTypes (shuffle ROOM_TYPES js) (specialRoll == 0)) e1 e2)
        links) =
      (LAYOUTS.get layoutIndex).map
        (fun e => (nodeIds.getD e.1 "", nodeIds.getD e.2 "")) := hpairs
  have hmap : ∀ e ∈ LAYOUTS.get layoutIndex,
      (nodeIds.getD e.1 "", nodeIds.getD e.2 "") ∈
        graphPairs (GraphData.mk (mkNodes nodeIds
          (upgradeTypes (shuffle ROOM_TYPES js) (specialRoll == 0)) e1 e2)
          links) := by
    intro e he
    rw [hgp]
    exact List.mem_map_of_mem _ he
  have hinj : ∀ i, i < 6 → ∀ j, j < 6 →
      nodeIds.getD i "" = nodeIds.getD j "" → i = j := by
    intro i hi j hj hij
    have hi' : i < nodeIds.length := by omega
    have hj' : j < nodeIds.length := by omega
    rw [List.getD_eq_getElem _ _ hi', List.getD_eq_getElem _ _ hj'] at hij
    exact (List.Nodup.getElem_inj_iff hnd).mp hij
  refine ⟨?_, ?_, ?_, ?_, ?_, ?_⟩
  · show (mkNodes nodeIds _ e1 e2).length = 6
    rw [mkNodes_length, hlen]
  · show links.length = 6
    rw [hlinklen, layouts_length _ hL]
  · intro u hu v hv
    have hu_id : u.id ∈ nodeIds := by
      rw [← mkNodes_map_id nodeIds
        (upgradeTypes (shuffle ROOM_TYPES js) (specialRoll == 0)) e1 e2]
      exact List.mem_map_of_mem _ hu
    have hv_id : v.id ∈ nodeIds := by
      rw [← mkNodes_map_id nodeIds
        (upgradeTypes (shuffle ROOM_TYPES js) (specialRoll == 0)) e1 e2]
      exact List.mem_map_of_mem _ hv
    obtain ⟨⟨i, hi⟩, hgi⟩ := List.mem_iff_get.mp hu_id
    obtain ⟨⟨j, hj⟩, hgj⟩ := List.mem_iff_get.mp hv_id
    obtain ⟨n, hp⟩ := hconn i (by omega) j (by omega)
    refine ⟨n, ?_⟩
    have hlift := pathLen_map (fun i => nodeIds.getD i "") hmap hp
    have hfi : nodeIds.getD i "" = u.id := by
      rw [List.getD_eq_getElem _ _ hi, ← List.get_eq_getElem nodeIds ⟨i, hi⟩,
        hgi]
    have hfj : nodeIds.getD j "" = v.id := by
      rw [List.getD_eq_getElem _ _ hj, ← List.get_eq_getElem nodeIds ⟨j, hj⟩,
        hgj]
    simpa only [hfi, hfj] using hlift
  · exact ⟨c.map (fun i => nodeIds.getD i ""),
      cycle_map _ _ _ hmap hinj c hc hcb⟩
  · exact mkNodes_entrance nodeIds _ e1 e2 (by omega)
  · show ((mkNodes nodeIds
        (upgradeTypes (shuffle ROOM_TYPES js) (specialRoll == 0)) e1
          e2).map fun n => n.roomType).Perm _ ∨
      ((mkNodes nodeIds _ e1 e2).map fun n => n.roomType).Perm _
    rw [mkNodes_map_roomType _ _ _ _ (by rw [htypeslen, hlen])]
    cases hsp : (specialRoll == 0) with
    | false =>
      left
      rw [upgradeTypes_false]
      exact shuffle_perm ROOM_TYPES js
    | true =>
      right
      have hmem : RoomType.empty ∈ shuffle ROOM_TYPES js :=
        (shuffle_perm ROOM_TYPES js).mem_iff.mpr (by decide)
      rw [upgradeTypes_true _ hmem, List.perm_iff_count]
      intro x
      have hidx : (shuffle ROOM_TYPES js).indexOf RoomType.empty <
          (shuffle ROOM_TYPES js).length :=
        List.indexOf_lt_length.mpr hmem
      have h1 := count_set_add (shuffle ROOM_TYPES js) _ RoomType.special
        hidx x
      rw [List.indexOf_get hidx] at h1
      have h2 : (shuffle ROOM_TYPES js).count x = ROOM_TYPES.count x :=
        (shuffle_perm ROOM_TYPES js).count_eq x
      have hb3 : (3 : Nat) < ROOM_TYPES.length := by decide
      have h3 := count_set_add ROOM_TYPES 3 RoomType.special hb3 x
      have hg3 : ROOM_TYPES.get ⟨3, hb3⟩ = RoomType.empty := rfl
      have hset3 : ROOM_TYPES.set 3 RoomType.special =
          [RoomType.monster_treasure, .monster, .treasure, .special, .empty,
            .empty] := rfl
      rw [hg3, hset3] at h3
      rw [h2] at h1
      split_ifs at h1 h3 <;> omega

/-- Witness for `generate_unit_spec` at the concrete unit `subUnit`. -/
theorem generate_unit_spec_witness :
    ((["s0", "s1", "s2", "s3", "s4", "s5"] : List String).length = 6 ∧
      (["s0", "s1", "s2", "s3", "s4", "s5"] : List String).Nodup ∧
      (0 : Nat) < 6 ∧
      generateBiteSizedDungeon ⟨0, by decide⟩
        ["s0", "s1", "s2", "s3", "s4", "s5"] [] 1 0 0 (fun _ => 0) =
        some subUnit) ∧
    (subUnit.nodes.length = 6 ∧ subUnit.links.length = 6 ∧
      (∀ u ∈ subUnit.nodes, ∀ v ∈ subUnit.nodes,
        Reachable (graphPairs subUnit) u.id v.id) ∧
      HasCycle (graphPairs subUnit) ∧
      (∃ n ∈ subUnit.nodes, n.entrance = true) ∧
      ((subUnit.nodes.map fun n => n.roomType).Perm
          [RoomType.monster_treasure, .monster, .treasure, .empty, .empty,
            .empty] ∨
        (subUnit.nodes.map fun n => n.roomType).Perm
          [RoomType.monster_treasure, .monster, .treasure, .special, .empty,
            .empty])) :=
  ⟨⟨rfl, by decide, by decide, subUnit_generated⟩,
    generate_unit_spec ⟨0, by decide⟩ ["s0", "s1", "s2", "s3", "s4", "s5"]
      [] 1 0 0 (fun _ => 0) subUnit rfl (by decide) (by decide)
      subUnit_generated⟩

theorem contains_iff_mem_str (l : List String) (a : String) :
    l.contains a = true ↔ a ∈ l := by
  simp [List.contains]

/-- The result graph has a connection joining `a` and `x` (in either stored
direction). -/
def connectsTo (g : GraphData) (a x : String) : Prop :=
  ∃ l ∈ g.links, (l.source = a ∧ l.target = x) ∨ (l.target = a ∧ l.source = x)

instance (g : GraphData) (a x : String) : Decidable (connectsTo g a x) :=
  decidable_of_iff (∃ l ∈ g.links,
    (l.source = a ∧ l.target = x) ∨ (l.target = a ∧ l.source = x)) Iff.rfl

/-- C1 counterexample: after exploding room `R` of `clueGraph` into `subUnit`,
the bridge room `s0` is connected not only to `R`'s old neighbour `A` but
also to the new unit's internal room `s1` — so the bridge room's neighbour
set is NOT exactly the set of rooms that were connected to `R`. -/
theorem replace_exact_neighbors_counterexample :
    ¬ (∀ x, connectsTo (replaceNodeWithDungeon clueGraph "R" subUnit).1 "s0" x ↔
        connectsTo clueGraph "R" x) := fun h =>
  absurd ((h "s1").mp (by decide)) (by decide)

/-- C1 (amended): replacing room `R` (present in `g`) by a fresh unit `sub`
with bridge room `b` removes every room with id `R`, connects the bridge to
the rooms of `g` by exactly the re-created copies of `R`'s old edges — each
carrying the original category, description and clue-room reference verbatim —
and keeps every room and connection of `g` not touching `R` unchanged.  The
bridge additionally carries the new unit's internal connections (which is why
its neighbour set is not *exactly* `R`'s old neighbour set).  Hypotheses: the
unit's ids are fresh, and both graphs' links join their own rooms. -/
theorem replace_external_connectivity (g : GraphData) (R : String)
    (sub : GraphData) (b : DungeonNode) (rest : List DungeonNode)
    (res : GraphData) (bid : String)
    (hsub : sub.nodes = b :: rest)
    (hR : R ∈ g.nodes.map fun n => n.id)
    (hdisj : ∀ n ∈ sub.nodes, n.id ∉ g.nodes.map fun n => n.id)
    (hgwf : ∀ l ∈ g.links, l.source ∈ (g.nodes.map fun n => n.id) ∧
      l.target ∈ (g.nodes.map fun n => n.id))
    (hswf : ∀ l ∈ sub.links, l.source ∈ (sub.nodes.map fun n => n.id) ∧
      l.target ∈ (sub.nodes.map fun n => n.id))
    (hres : replaceNodeWithDungeon g R sub = (res, bid)) :
    bid = b.id ∧
    (∀ n ∈ res.nodes, n.id ≠ R) ∧
    (res.links.filter (fun l =>
        (l.source == b.id && (g.nodes.map fun n => n.id).contains l.target) ||
        (l.target == b.id && (g.nodes.map fun n => n.id).contains l.source)) =
      (g.links.filter fun l => l.source == R || l.target == R).map
        (reattachLink b.id R)) ∧
    (∀ ol ∈ g.links.filter fun l => l.source == R || l.target == R,
      reattachLink b.id R ol ∈ res.links) ∧
    (∀ n ∈ g.nodes, n.id ≠ R → n ∈ res.nodes) ∧
    (∀ l ∈ g.links, l.source ≠ R → l.target ≠ R → l ∈ res.links) := by
  have hfindS : (g.nodes.find? fun n => n.id == R).isSome := by
    rw [List.find?_isSome]
    obtain ⟨n, hn, hid⟩ := List.mem_map.mp hR
    exact ⟨n, hn, by simp [hid]⟩
  obtain ⟨node, hfind⟩ := Option.isSome_iff_exists.mp hfindS
  have hbid : (sub.nodes.headD default).id = b.id := by
    rw [hsub, List.headD_cons]
  have hbmem : b ∈ sub.nodes := by
    rw [hsub]; exact List.mem_cons_self b rest
  have hbnotg : b.id ∉ g.nodes.map fun n => n.id := hdisj b hbmem
  have hsubids : ∀ x ∈ sub.nodes.map (fun n => n.id),
      x ∉ g.nodes.map fun n => n.id := by
    intro x hx
    obtain ⟨n, hn, rfl⟩ := List.mem_map.mp hx
    exact hdisj n hn
  unfold replaceNodeWithDungeon at hres
  rw [hfind] at hres
  simp only [hbid] at hres
  injection hres with hres1 hres2
  subst hres1
  subst hres2
  refine ⟨rfl, ?_, ?_, ?_, ?_, ?_⟩
  · intro n hn
    rcases List.mem_append.mp hn with hn | hn
    · have := (List.mem_filter.mp hn).2
      simpa using this
    · obtain ⟨n₀, hn₀, hFn⟩ := List.mem_map.mp hn
      have hid : n.id = n₀.id := by
        by_cases hb : (n₀.id == b.id) = true <;> rw [← hFn] <;> simp [hb]
      rw [hid]
      intro hc
      exact hsubids n₀.id (List.mem_map_of_mem _ hn₀) (hc ▸ hR)
  · rw [List.filter_append, List.filter_append]
    have e1 : (g.links.filter fun l => l.source != R && l.target != R).filter
        (fun l =>
          (l.source == b.id && (g.nodes.map fun n => n.id).contains l.target) ||
          (l.target == b.id && (g.nodes.map fun n => n.id).contains l.source)) =
        [] := by
      rw [List.filter_eq_nil_iff]
      intro l hl
      have hlg := List.mem_of_mem_filter hl
      obtain ⟨hs, ht⟩ := hgwf l hlg
      simp only [Bool.or_eq_true, Bool.and_eq_true, beq_iff_eq, not_or,
        not_and]
      constructor
      · intro hsb; exact absurd (hsb ▸ hs) hbnotg
      · intro htb; exact absurd (htb ▸ ht) hbnotg
    have e2 : sub.links.filter (fun l =>
          (l.source == b.id && (g.nodes.map fun n => n.id).contains l.target) ||
          (l.target == b.id && (g.nodes.map fun n => n.id).contains l.source)) =
        [] := by
      rw [List.filter_eq_nil_iff]
      intro l hl
      obtain ⟨hs, ht⟩ := hswf l hl
      simp only [Bool.or_eq_true, Bool.and_eq_true, beq_iff_eq, not_or,
        not_and, contains_iff_mem_str]
      constructor
      · intro _ hc; exact hsubids l.target ht hc
      · intro _ hc; exact hsubids l.source hs hc
    have e3 : ((g.links.filter fun l => l.source == R || l.target == R).map
          (reattachLink b.id R)).filter (fun l =>
          (l.source == b.id && (g.nodes.map fun n => n.id).contains l.target) ||
          (l.target == b.id && (g.nodes.map fun n => n.id).contains l.source)) =
        (g.links.filter fun l => l.source == R || l.target == R).map
          (reattachLink b.id R) := by
      rw [List.filter_eq_self]
      intro rl hrl
      obtain ⟨ol, hol, rfl⟩ := List.mem_map.mp hrl
      obtain ⟨hs, ht⟩ := hgwf ol (List.mem_of_mem_filter hol)
      have hext : (reattachLink b.id R ol).target ∈ g.nodes.map fun n => n.id := by
        unfold reattachLink
        by_cases hsr : (ol.source == R) = true <;> simp [hsr, hs, ht]
      simp only [Bool.or_eq_true, Bool.and_eq_true, beq_iff_eq,
        contains_iff_mem_str]
      exact Or.inl ⟨rfl, hext⟩
    rw [e1, e2, e3, List.nil_append, List.nil_append]
  · intro ol hol
    refine List.mem_append_right _ ?_
    exact List.mem_map_of_mem _ hol
  · intro n hn hnR
    refine List.mem_append_left _ (List.mem_filter.mpr ⟨hn, ?_⟩)
    simpa using hnR
  · intro l hl hs ht
    refine List.mem_append_left _ (List.mem_append_left _
      (List.mem_filter.mpr ⟨hl, ?_⟩))
    simp [hs, ht]

/-- Witness for `replace_external_connectivity`: exploding room `R` of
`clueGraph` into the concrete generated unit `subUnit`. -/
theorem replace_external_connectivity_witness :
    (subUnit.nodes = subUnit.nodes.headD default :: subUnit.nodes.tail ∧
      "R" ∈ clueGraph.nodes.map (fun n => n.id) ∧
      (∀ n ∈ subUnit.nodes, n.id ∉ clueGraph.nodes.map fun n => n.id) ∧
      (∀ l ∈ clueGraph.links,
        l.source ∈ (clueGraph.nodes.map fun n => n.id) ∧
        l.target ∈ (clueGraph.nodes.map fun n => n.id)) ∧
      (∀ l ∈ subUnit.links,
        l.source ∈ (subUnit.nodes.map fun n => n.id) ∧
        l.target ∈ (subUnit.nodes.map fun n => n.id)) ∧
      replaceNodeWithDungeon clueGraph "R" subUnit =
        ((replaceNodeWithDungeon clueGraph "R" subUnit).1,
          (replaceNodeWithDungeon clueGraph "R" subUnit).2)) ∧
    ((replaceNodeWithDungeon clueGraph "R" subUnit).2 =
        (subUnit.nodes.headD default).id ∧
      (∀ n ∈ (replaceNodeWithDungeon clueGraph "R" subUnit).1.nodes,
        n.id ≠ "R") ∧
      ((replaceNodeWithDungeon clueGraph "R" subUnit).1.links.filter (fun l =>
          (l.source == (subUnit.nodes.headD default).id &&
            (clueGraph.nodes.map fun n => n.id).contains l.target) ||
          (l.target == (subUnit.nodes.headD default).id &&
            (clueGraph.nodes.map fun n => n.id).contains l.source)) =
        (clueGraph.links.filter fun l =>
          l.source == "R" || l.target == "R").map
          (reattachLink (subUnit.nodes.headD default).id "R")) ∧
      (∀ ol ∈ clueGraph.links.filter fun l =>
          l.source == "R" || l.target == "R",
        reattachLink (subUnit.nodes.headD default).id "R" ol ∈
          (replaceNodeWithDungeon clueGraph "R" subUnit).1.links) ∧
      (∀ n ∈ clueGraph.nodes, n.id ≠ "R" →
        n ∈ (replaceNodeWithDungeon clueGraph "R" subUnit).1.nodes) ∧
      (∀ l ∈ clueGraph.links, l.source ≠ "R" → l.target ≠ "R" →
        l ∈ (replaceNodeWithDungeon clueGraph "R" subUnit).1.links)) :=
  ⟨⟨rfl, by decide, by decide, by decide, by decide, rfl⟩,
    replace_external_connectivity clueGraph "R" subUnit _ _ _ _
      rfl (by decide) (by decide) (by decide) (by decide) rfl⟩
